import Mathlib

/-!
Verification of the region-eval repository (region allocator / escape-tracking
simulator "cpusim" plus the analytic cost model "region-eval").

The Go source is shallowly embedded:
* machine words (`uintptr`, `uint64`) are `Nat` with explicit `% 2^64`
  wrapping wherever Go's wrap-around semantics can matter;
* raw memory is a map from addresses (or offsets) to byte or word values;
* Go functions that can panic or loop are modelled as `Option`-returning
  functions (`none` models the panic / missing-object crash), with an explicit
  fuel argument standing in for loops whose bound is not structural;
* `float64` quantities of the cost model are embedded as exact rationals, and
  Go's float-to-integer conversions as truncation toward zero.
-/

namespace RegionEval

/-! ## Machine-integer helpers (Go `uint64` / `uintptr` semantics) -/

/-- `2^64`, the modulus of Go's 64-bit unsigned arithmetic. -/
def U64 : Nat := 2 ^ 64

/-- `bitmath.AlignDown(x, a)`: for a power-of-two `a`, Go computes
`x &^ (a-1)`, which equals rounding down to a multiple of `a`. -/
def alignDown (x a : Nat) : Nat := x / a * a

/-- `bitmath.AlignUp(x, a)`: for a power-of-two `a`, Go computes
`(x + a - 1) &^ (a-1)`, which equals rounding up to a multiple of `a`. -/
def alignUp (x a : Nat) : Nat := (x + a - 1) / a * a

/-- Go `x | y` on `uint64`. -/
def or64 (x y : Nat) : Nat := x ||| y

/-- Go `x & y` on `uint64`. -/
def and64 (x y : Nat) : Nat := x &&& y

/-- Go `^x` (bitwise complement) on `uint64`. -/
def not64 (x : Nat) : Nat := 2 ^ 64 - 1 - x % U64

/-- Go `x << n` on `uint64`: shifts left and wraps at 64 bits. -/
def shl64 (x n : Nat) : Nat := (x <<< n) % U64

/-- Go `x - y` on `uint64`: wrapping subtraction. -/
def wsub64 (x y : Nat) : Nat := (x % U64 + U64 - y % U64) % U64

/-- Point update of a map. -/
def update (f : Nat → Nat) (i v : Nat) : Nat → Nat := fun j => if j = i then v else f j

/-- Fuelled trailing-zero count: `tzGo x f` is the index of the lowest set bit
of `x`, or `f` when `x` has no set bit reachable within `f` halvings. -/
def tzGo : Nat → Nat → Nat
  | _, 0 => 0
  | x, f + 1 => if x % 2 = 1 then 0 else 1 + tzGo (x / 2) f

/-- Go `bits.TrailingZeros64`. -/
def tz64 (x : Nat) : Nat := tzGo (x % U64) 64

/-- Fuelled bit length: number of bits needed to represent `x` (`bits.Len`). -/
def bitsLenGo : Nat → Nat → Nat
  | _, 0 => 0
  | x, f + 1 => if x = 0 then 0 else bitsLenGo (x / 2) f + 1

/-- Go `bits.LeadingZeros64`. -/
def lz64 (x : Nat) : Nat := 64 - bitsLenGo (x % U64) 64

/-- Little-endian read of `k` bytes starting at `off` (Go's in-memory `uint64`
loads are little-endian on the targeted platforms). -/
def readLE (mem : Nat → Nat) (off : Nat) : Nat → Nat
  | 0 => 0
  | k + 1 => mem off % 256 + 256 * readLE mem (off + 1) k

/-- Little-endian write of the low `k` bytes of `v` at offset `off`. -/
def writeLE (mem : Nat → Nat) (off v k : Nat) : Nat → Nat :=
  fun o => if off ≤ o ∧ o < off + k then (v >>> (8 * (o - off))) % 256 else mem o

/-- `memclrNoHeapPointers`: zero the `n` bytes starting at `off`. -/
def zeroRange (mem : Nat → Nat) (off n : Nat) : Nat → Nat :=
  fun o => if off ≤ o ∧ o < off + n then 0 else mem o

/-! ## cpusim escape tracking (`esc.go`, `faketype.go`)

`MarkEscaped` only ever performs 8-byte-aligned loads and stores inside one
block, so the block's memory is modelled as a map from absolute *word* indices
(address divided by 8) to 64-bit values.  The `BlockMeta` at the block base
occupies words `base/8 .. base/8+33`: `EscBits` words `+0..+15`, `ObjBits`
words `+16..+31`, `LineEscape` word `+32`, `Region` word `+33`. -/

/-- `FakeType` (faketype.go): object size, pointer-prefix length, and the
GC pointer-bit stream (`gcdata k` is bit `k`, i.e. whether payload word `k`
is a pointer). -/
structure FakeTypeM where
  size_ : Nat
  ptrBytes : Nat
  gcdata : Nat → Bool

/-- The backward-scan loop of `MarkEscaped`
(`for n == 64 { objIdx = AlignDown(objIdx, 64) - 64; n = LeadingZeros64(ObjBits[objIdx/64]) }`
followed by `objIdx = AlignDown(objIdx, 64) + 64 - n - 1`).
`obj` is the `ObjBits` array (word-indexed).  The fuel argument bounds the
number of words visited; in Go a scan that runs below word 0 underflows the
unsigned index and faults, which the model reports as `none`. -/
def findObjStartLoop (obj : Nat → Nat) : Nat → Nat → Nat → Option Nat
  | 0, _, _ => none
  | f + 1, objIdx, n =>
    if n = 64 then
      let objIdx2 := alignDown objIdx 64 - 64
      findObjStartLoop obj f objIdx2 (lz64 (obj (objIdx2 / 64)))
    else
      some (alignDown objIdx 64 + 64 - n - 1)

/-- The object-start search of `MarkEscaped` (esc.go lines 27-43): fast path
on the `ObjBits` bit of the immediately preceding word, otherwise mask the
current bitmap word with `(uint64(1) << objIdx) - 1` and scan backwards with
`LeadingZeros64`. -/
def findObjStart (obj : Nat → Nat) (objIdx : Nat) : Option Nat :=
  if objIdx ≠ 0 ∧ (obj ((objIdx - 1) / 64)).testBit ((objIdx - 1) % 64) = true then
    some (objIdx - 1)
  else
    let mask := wsub64 (shl64 1 objIdx) 1
    findObjStartLoop obj (objIdx / 64 + 1) objIdx (lz64 (and64 (obj (objIdx / 64)) mask))

/-- The middle phase of the escape-bit general path:
`for k := objIdx/64 + 1; k < objEndIdx/64; k++ { d.EscBits[k] = ^uint64(0) }`,
written with an explicit iteration count `c = e - k`. -/
def setMidCount (mem : Nat → Nat) (k : Nat) : Nat → (Nat → Nat)
  | 0 => mem
  | c + 1 => setMidCount (update mem k (not64 0)) (k + 1) c

/-- Assign `^uint64(0)` to every word index in `[k, e)`. -/
def setMidWords (mem : Nat → Nat) (k e : Nat) : Nat → Nat := setMidCount mem k (e - k)

/-- The escape-bit-setting phase of `MarkEscaped` (esc.go lines 47-62).
`eb` is the word index of the block base (`EscBits` starts there); `oi`, `oe`
are `objIdx` and `objEndIdx`. -/
def setEscBits (mem : Nat → Nat) (eb oi oe : Nat) : Nat → Nat :=
  if oi / 64 = oe / 64 then
    update mem (eb + oi / 64)
      (or64 (mem (eb + oi / 64)) (shl64 (wsub64 (shl64 1 (oe - oi + 1)) 1) (oi % 64)))
  else
    let m1 := update mem (eb + oi / 64) (or64 (mem (eb + oi / 64)) (shl64 (not64 0) (oi % 64)))
    let m2 := setMidWords m1 (eb + oi / 64 + 1) (eb + oe / 64)
    update m2 (eb + oe / 64) (or64 (m2 (eb + oe / 64)) (wsub64 (shl64 1 (oe % 64 + 1)) 1))

/-- Modelled from the spec: the pointer-shape iterator (`typePointers` with
`nextFast`/`next` and `readUintptr`, which are not among the provided source
files) yields, for a payload running over `[addr, addr + size)`, each address
`addr + k*8` whose `GCData` bit `k` is set, for `k*8 < PtrBytes`, and stops at
`limit`. -/
def ptrFieldAddrs (typ : FakeTypeM) (addr limit : Nat) : List Nat :=
  (((List.range (typ.ptrBytes / 8)).filter (fun k => typ.gcdata k)).map
    (fun k => addr + k * 8)).filter (fun ad => ad < limit)

/-- `MarkEscaped(a)` (esc.go).  `typeOf` models dereferencing a `*FakeType`
stored in the low 48 header bits; `mem` is word-indexed memory.  The result is
the new memory, or `none` when the Go original would fault or panic: the
backward scan running off the front of the block, or the `panic("wtf")` on a
non-zero pointer slot.  The transitive phase recurses only on the value of a
pointer slot, and any non-zero slot panics first, so every recursive call is
`MarkEscaped(nil)` and returns immediately; the model therefore needs no
recursion. -/
def markEscaped (typeOf : Nat → FakeTypeM) (mem : Nat → Nat) (a : Nat) : Option (Nat → Nat) :=
  if a = 0 then some mem
  else
    let base := alignDown a 8192
    let bw := base / 8
    let objIdx0 := (a - base) / 8
    match findObjStart (fun k => mem (bw + 16 + k)) objIdx0 with
    | none => none
    | some objIdx =>
      let header := mem (bw + objIdx)
      let size := header >>> 48 * 8
      let objEndIdx := objIdx + size / 8
      let mem1 := setEscBits mem bw objIdx objEndIdx
      let objLine := (a - base) / 128
      let objEndLine := (a + size - base) / 128
      let mem2 := update mem1 (bw + 32)
        (or64 (mem1 (bw + 32)) (shl64 (shl64 1 (objEndLine - objLine)) objLine))
      let typ := typeOf (and64 header (wsub64 (shl64 1 48) 1))
      if typ.ptrBytes = 0 then some mem2
      else
        let objStart := base + objIdx * 8
        if (ptrFieldAddrs typ (objStart + 8) (objStart + 8 + size)).all
            (fun ad => mem2 (ad / 8) == 0) then
          some mem2
        else none

/-! ## cpusim write barrier (esc.go: `escapedOrHeap`,
`RegionWriteBarrierFastPathReference`, `RegionWriteBarrierFastPath`)

The barrier reads single bytes (reference) and unaligned 8-byte words (fast
path), so here memory is modelled as a map from absolute byte addresses to
byte values.  `minRegion` is the global `MinRegionAddress`.  Both barrier
models return `true` exactly when the Go function would call
`dummyMarkEscaped` (escape propagation). -/

/-- `escapedOrHeap(ptr)`: below `MinRegionAddress` counts as heap; otherwise
test bit `word % 8` of the byte at `base + word/8`, where
`base = AlignDown(ptr, 8192)` and `word = (ptr - base) / 8`. -/
def escapedOrHeap (minRegion : Nat) (mem : Nat → Nat) (q : Nat) : Bool :=
  if q < minRegion then true
  else
    let base := alignDown q 8192
    let word := (q - base) / 8
    (mem (base + word / 8) % 256).testBit (word % 8)

/-- `RegionWriteBarrierFastPathReference(ptr, dst)`: propagate exactly when
`!escapedOrHeap(ptr) && escapedOrHeap(dst)`. -/
def regionWriteBarrierFastPathReference (minRegion : Nat) (mem : Nat → Nat)
    (ptr dst : Nat) : Bool :=
  if escapedOrHeap minRegion mem ptr || !escapedOrHeap minRegion mem dst then false
  else true

/-- `RegionWriteBarrierFastPath(ptr, dst)`: the branch-pruned barrier.  Note
that it loads the `uint64` at address `base + word/64` (as written in the
source) and tests bit `word % 64` of it. -/
def regionWriteBarrierFastPath (minRegion : Nat) (mem : Nat → Nat)
    (ptr dst : Nat) : Bool :=
  if ptr = 0 then false
  else if ptr < minRegion then false
  else
    let dstClear : Bool :=
      if minRegion ≤ dst then
        let base := alignDown dst 8192
        let word := (dst - base) / 8
        !(readLE mem (base + word / 64) 8).testBit (word % 64)
      else false
    if dstClear then false
    else
      let base := alignDown ptr 8192
      let word := (ptr - base) / 8
      if (readLE mem (base + word / 64) 8).testBit (word % 64) then false
      else true

/-- Concrete memory for the barrier counterexample: one region block at base
8192 whose `EscBits` has exactly bit 64 set (i.e. byte `base + 8` is 1),
meaning the word at offset 512 belongs to an escaped object. -/
def memBarrierEx : Nat → Nat := fun o => if o = 8192 + 8 then 1 else 0

/-! ## cpusim block allocator (`Block`, `Allocator`)

The allocator manipulates raw bytes of its 8 KiB block (`b.data`), so a block
is modelled with a byte-indexed map (offsets `0..8191` relative to `base`).
The in-band `BlockMeta` occupies bytes `0..255` (`EscBits` `0..127`, `ObjBits`
`128..255`) plus `LineEscape` at `256..263` and `Region` at `264..271`.
`cursor` and `limit` are absolute addresses, as in the source. -/

structure GoBlock where
  base : Nat
  cursor : Nat
  limit : Nat
  lineAlloc : Nat
  data : Nat → Nat

/-- `Block.tryAllocFast(size)`: bump the cursor if `cursor + size < limit`
(strict), set the object-start bit for word `(cursor - base) / 8` in
`ObjBits`, and return the old cursor. -/
def tryAllocFast (b : GoBlock) (size : Nat) : Option (GoBlock × Nat) :=
  let c := b.cursor
  let n := (c + size) % U64
  if n < b.limit then
    let wi := (c - b.base) / 8
    some ({ b with
            cursor := n,
            data := update b.data (128 + wi / 8)
              (or64 (b.data (128 + wi / 8)) (shl64 1 (wi % 8))) }, c)
  else none

/-- `Block.refill()`: advance to the next contiguous run of free lines.
`i = TrailingZeros64(^lineAlloc)` is the first free line (fail at 64);
`n` is the run length (corrected when the whole upper part is free);
the run is marked allocated and `cursor`/`limit` are set to its bounds,
with 16 extra bytes skipped when the run starts at line 2 (room for
`LineEscape` and `Region`). -/
def refill (b : GoBlock) : Option GoBlock :=
  let lineAlloc := b.lineAlloc
  let i := tz64 (not64 lineAlloc)
  if i = 64 then none
  else
    let n0 := tz64 (lineAlloc >>> i)
    let n := if n0 = 64 then n0 - i else n0
    let la2 := or64 lineAlloc (shl64 (wsub64 (shl64 1 n) 1) i)
    let cursor := b.base + i * 128
    let limit := cursor + n * 128
    let cursor2 := if i = 2 then cursor + 16 else cursor
    some { b with lineAlloc := la2, cursor := cursor2, limit := limit }

/-- `Block.tryAlloc1(size)`: repeatedly refill and retry the fast path.  Each
successful `refill` marks at least one previously-free line of the 64, so 64
units of fuel always suffice; `none` is an exhausted block. -/
def tryAlloc1 : GoBlock → Nat → Nat → Option (GoBlock × Nat)
  | _, _, 0 => none
  | b, size, f + 1 =>
    match refill b with
    | none => none
    | some b2 =>
      match tryAllocFast b2 size with
      | some r => some r
      | none => tryAlloc1 b2 size f

/-- `Block.tryAlloc(size)`: fast path, then the refill loop. -/
def tryAlloc (b : GoBlock) (size : Nat) : Option (GoBlock × Nat) :=
  match tryAllocFast b size with
  | some r => some r
  | none => tryAlloc1 b size 64

/-- The `ObjBits`-clearing loop of `Block.Reset`: iterate runs of zero bits of
`clearIter` (a shifting copy of `lineAlloc`) and zero the 16-bit `ObjBits`
chunks `ObjBits[i : i+n]` — the chunk indices are taken from the *shifted*
iterator, exactly as in the source.  Chunk `j` is the two bytes at offsets
`128 + 2j` and `129 + 2j`.  Each iteration shifts `clearIter` right by at
least one bit, so 64 units of fuel always suffice. -/
def resetClearLoop : (Nat → Nat) → Nat → Nat → (Nat → Nat)
  | data, _, 0 => data
  | data, clearIter, f + 1 =>
    if clearIter = 0 then data
    else
      let i := tz64 (not64 clearIter)
      let c1 := clearIter >>> i
      let n0 := tz64 c1
      let n := if n0 = 64 then n0 - i else n0
      let data2 := zeroRange data (128 + 2 * i) (2 * n)
      resetClearLoop data2 (c1 >>> n) f

/-- `Block.Reset()`: reserve the metadata lines and every line recorded in
`LineEscape`, reset the bump window, and clear the `ObjBits` chunks of the
free line runs. -/
def blockReset (b : GoBlock) : GoBlock :=
  let lineEscape := readLE b.data 256 8
  let la := or64 lineEscape 3
  { b with lineAlloc := la, cursor := 0, limit := 0,
           data := resetClearLoop b.data la 64 }

/-- `NewBlock(lines)` at a host-supplied base address: fresh zeroed buffer,
`LineEscape := lines`, then `Reset`. -/
def newBlock (lines base : Nat) : GoBlock :=
  blockReset
    { base := base, cursor := 0, limit := 0, lineAlloc := 0,
      data := writeLE (fun _ => 0) 256 lines 8 }

/-- The `Allocator` state: main block, overflow block, full list, reusable
stack.  `freshIdx` counts calls to `NewBlock`, whose base addresses are
supplied by an oracle `newBase` (the host allocator). -/
structure GoAllocator where
  main : Option GoBlock
  overflow : Option GoBlock
  full : List GoBlock
  existing : List GoBlock
  freshIdx : Nat

/-- `Allocator.getBlock()`: pop the top of the `existing` stack, or make a
fresh block. -/
def getBlock (newBase : Nat → Nat) (st : GoAllocator) : GoBlock × GoAllocator :=
  match st.existing.getLast? with
  | none => (newBlock 0 (newBase st.freshIdx), { st with freshIdx := st.freshIdx + 1 })
  | some b => (b, { st with existing := st.existing.dropLast })

/-- The inner overflow loop of `Allocator.Make`: keep allocating from the
overflow block, replacing it with a fresh block on each failure.  The `Bool`
in the result records that the overflow slot served the allocation. -/
def makeOverflow (newBase : Nat → Nat) :
    Nat → GoAllocator → GoBlock → Nat → Option (GoAllocator × Nat × Bool)
  | 0, _, _, _ => none
  | f + 1, st, ob, fullSize =>
    match tryAlloc ob fullSize with
    | some (ob2, addr) => some ({ st with overflow := some ob2 }, addr, true)
    | none =>
      let nb := newBlock 0 (newBase st.freshIdx)
      makeOverflow newBase f { st with overflow := some nb, freshIdx := st.freshIdx + 1 } nb
        fullSize

/-- The outer loop of `Allocator.Make`: try the main block; divert large
allocations to the overflow block when the main block still has more than one
line of room; otherwise retire the main block to the full list and continue
with a block from `getBlock`. -/
def makeOuter (newBase : Nat → Nat) :
    Nat → GoAllocator → Nat → Option (GoAllocator × Nat × Bool)
  | 0, _, _ => none
  | f + 1, st, fullSize =>
    match st.main with
    | none => none
    | some mb =>
      match tryAlloc mb fullSize with
      | some (mb2, addr) => some ({ st with main := some mb2 }, addr, false)
      | none =>
        if 128 < fullSize ∧ 128 < wsub64 mb.limit mb.cursor then
          match st.overflow with
          | some ob => makeOverflow newBase (f + 1) st ob fullSize
          | none =>
            let nb := newBlock 0 (newBase st.freshIdx)
            makeOverflow newBase (f + 1)
              { st with overflow := some nb, freshIdx := st.freshIdx + 1 } nb fullSize
        else
          let stfull := { st with full := mb :: st.full, main := none }
          let (nb, st2) := getBlock newBase stfull
          makeOuter newBase f { st2 with main := some nb } fullSize

/-- `Allocator.Make(size, typ)`: ensure a main block, compute
`fullSize = AlignUp(size + headerSize, minAlign)`, run the allocation loop,
then write the header word `type | (size/8 << 48)` at the returned address,
zero the payload, and return `address + headerSize`. -/
def make (newBase : Nat → Nat) (fuel : Nat) (st0 : GoAllocator) (size typAddr : Nat) :
    Option (GoAllocator × Nat) :=
  let st1 :=
    match st0.main with
    | none =>
      let (b, st2) := getBlock newBase st0
      { st2 with main := some b }
    | some _ => st0
  let fullSize := alignUp (size + 8) 8
  match makeOuter newBase fuel st1 fullSize with
  | none => none
  | some (st2, addr, isOv) =>
    let hdr := or64 typAddr (shl64 (size / 8) 48)
    let finish := fun (b : GoBlock) =>
      { b with data := zeroRange (writeLE b.data (addr - b.base) hdr 8) (addr + 8 - b.base) size }
    if isOv then
      match st2.overflow with
      | none => none
      | some ob => some ({ st2 with overflow := some (finish ob) }, addr + 8)
    else
      match st2.main with
      | none => none
      | some mb => some ({ st2 with main := some (finish mb) }, addr + 8)

/-- Concrete block for the `Reset` evaluation: line 10 is recorded escaped in
`LineEscape` (byte 257 holds bit 2, i.e. `LineEscape = 1 << 10`) and every
`ObjBits` byte is `0xFF`. -/
def blockResetEx : GoBlock :=
  { base := 0, cursor := 0, limit := 0, lineAlloc := 0,
    data := fun o => if 128 ≤ o ∧ o < 256 then 255 else if o = 257 then 4 else 0 }

/-! ## region-eval cost model and parameter sweeps
(`scenario.go`, `profile.go`, `main.go`)

`float64` values are embedded as exact rationals (`ℚ`); the decimal constants
of the source (`0.15`, `0.08`, `4.5`, `3.37`) are taken at their decimal
values.  Go's `time.Duration(x)` and `uint64(x)` conversions truncate a float
toward zero; `goTrunc`/`goU64` model that (every conversion site of the cost
model receives a non-negative value for in-range inputs). -/

/-- Go float-to-`int64` conversion: truncation toward zero. -/
def goTrunc (q : ℚ) : ℤ := if q < 0 then -⌊-q⌋ else ⌊q⌋

/-- Go float-to-`uint64` conversion (inputs of interest are non-negative). -/
def goU64 (q : ℚ) : Nat := (goTrunc q).toNat

/-- `Scenario` (scenario.go). -/
structure ScenarioM where
  name : String
  regionAllocBytesFrac : ℚ
  regionAllocsFrac : ℚ
  fadeAllocBytesFrac : ℚ
  fadeAllocsFrac : ℚ
  scannedRegionAllocBytesFrac : ℚ
  regionScanCostRatio : ℚ
  fadeAllocsPointerDensity : ℚ

/-- `AppProfile` (profile.go); `TotalCPU` and `GCCPU` are `time.Duration`
(integer nanoseconds), the rest `uint64`. -/
structure AppProfileM where
  name : String
  totalCPU : ℤ
  gcCPU : ℤ
  allocBytes : Nat
  allocs : Nat
  pointerWrites : Nat

/-- `bumpAllocCPU(o, b) = Duration(8*o + 0.15*b)`. -/
def bumpAllocCPU (o b : Nat) : ℤ := goTrunc (8 * (o : ℚ) + (0.15 : ℚ) * (b : ℚ))

/-- `baseAllocCPU(o, b) = Duration(20*o + 0.08*b)`. -/
def baseAllocCPU (o b : Nat) : ℤ := goTrunc (20 * (o : ℚ) + (0.08 : ℚ) * (b : ℚ))

/-- `wbTestCPU(writes) = Duration(4.5*writes)`. -/
def wbTestCPU (w : Nat) : ℤ := goTrunc ((4.5 : ℚ) * (w : ℚ))

/-- `fadeCPU(o, p) = Duration(40*o + 3.37*p)`. -/
def fadeCPU (o p : Nat) : ℤ := goTrunc (40 * (o : ℚ) + (3.37 : ℚ) * (p : ℚ))

/-- `deltaAllocCPU(prof, scenario)` (scenario.go lines 82-98). -/
def deltaAllocCPU (prof : AppProfileM) (s : ScenarioM) : ℤ :=
  bumpAllocCPU (goU64 (s.regionAllocsFrac * (prof.allocs : ℚ)))
      (goU64 (s.regionAllocBytesFrac * (prof.allocBytes : ℚ)))
    + baseAllocCPU (goU64 ((1 - s.regionAllocsFrac) * (prof.allocs : ℚ)))
      (goU64 ((1 - s.regionAllocBytesFrac) * (prof.allocBytes : ℚ)))
    - baseAllocCPU prof.allocs prof.allocBytes

/-- `deltaCPU(prof, scenario)` (scenario.go lines 58-80). -/
def deltaCPU (prof : AppProfileM) (s : ScenarioM) : ℤ :=
  deltaAllocCPU prof s
    + goTrunc ((prof.gcCPU : ℚ) * (1 - s.regionAllocBytesFrac))
    + goTrunc ((prof.gcCPU : ℚ) * s.regionAllocBytesFrac
        * (s.fadeAllocBytesFrac + s.scannedRegionAllocBytesFrac) * s.regionScanCostRatio)
    - prof.gcCPU
    + wbTestCPU prof.pointerWrites
    + fadeCPU (goU64 ((prof.allocs : ℚ) * s.regionAllocsFrac * s.fadeAllocsFrac))
      (goU64 (s.fadeAllocsPointerDensity * (prof.allocBytes : ℚ)
        * s.regionAllocBytesFrac * s.fadeAllocBytesFrac))

/-- The closed-form cost model of the same shape with exact real arithmetic,
i.e. `deltaCPU` without the intermediate float-to-integer truncations (the
formula of the specification's cost-model section). -/
def deltaCPUReal (prof : AppProfileM) (s : ScenarioM) : ℚ :=
  (8 * (s.regionAllocsFrac * (prof.allocs : ℚ))
      + (0.15 : ℚ) * (s.regionAllocBytesFrac * (prof.allocBytes : ℚ)))
    + (20 * ((1 - s.regionAllocsFrac) * (prof.allocs : ℚ))
      + (0.08 : ℚ) * ((1 - s.regionAllocBytesFrac) * (prof.allocBytes : ℚ)))
    - (20 * (prof.allocs : ℚ) + (0.08 : ℚ) * (prof.allocBytes : ℚ))
    + (prof.gcCPU : ℚ) * (1 - s.regionAllocBytesFrac)
    + (prof.gcCPU : ℚ) * s.regionAllocBytesFrac
        * (s.fadeAllocBytesFrac + s.scannedRegionAllocBytesFrac) * s.regionScanCostRatio
    - (prof.gcCPU : ℚ)
    + (4.5 : ℚ) * (prof.pointerWrites : ℚ)
    + (40 * ((prof.allocs : ℚ) * s.regionAllocsFrac * s.fadeAllocsFrac)
      + (3.37 : ℚ) * (s.fadeAllocsPointerDensity * (prof.allocBytes : ℚ)
        * s.regionAllocBytesFrac * s.fadeAllocBytesFrac))

/-! ### VaryProgram (main.go, multi-parameter variant, lines 132-231) -/

/-- The six sweepable parameters of `param2Extractor`. -/
inductive ParamM where
  | BR | OR | BF | OF | CR | PF
deriving DecidableEq

/-- Read the field a parameter extractor points at. -/
def getParam (p : ParamM) (s : ScenarioM) : ℚ :=
  match p with
  | .BR => s.regionAllocBytesFrac
  | .OR => s.regionAllocsFrac
  | .BF => s.fadeAllocBytesFrac
  | .OF => s.fadeAllocsFrac
  | .CR => s.regionScanCostRatio
  | .PF => s.fadeAllocsPointerDensity

/-- Write through a parameter extractor (`*p = v`). -/
def setParam (p : ParamM) (v : ℚ) (s : ScenarioM) : ScenarioM :=
  match p with
  | .BR => { s with regionAllocBytesFrac := v }
  | .OR => { s with regionAllocsFrac := v }
  | .BF => { s with fadeAllocBytesFrac := v }
  | .OF => { s with fadeAllocsFrac := v }
  | .CR => { s with regionScanCostRatio := v }
  | .PF => { s with fadeAllocsPointerDensity := v }

/-- One `PARAM=[LO:HI]` item of a vary program. -/
structure VaryVarM where
  param : ParamM
  lo : ℚ
  hi : ℚ
deriving DecidableEq

/-- `VaryProgram`.  `steps` is a Go `int`; a non-positive value makes the
sweep loop run zero times, which the `Nat` here models. -/
structure VaryProgramM where
  vars : List VaryVarM
  steps : Nat
deriving DecidableEq

/-- One listed variable at step `i`:
`*p = lo + inc*i` with `inc = (hi - lo) / float64(steps - 1)`. -/
def setVar (steps : Nat) (sc : ScenarioM) (v : VaryVarM) (i : Nat) : ScenarioM :=
  let inc := (v.hi - v.lo) / ((((steps : ℤ) - 1 : ℤ) : ℚ))
  setParam v.param (v.lo + inc * (i : ℚ)) sc

/-- The `for _, v := range vp.vars` loop of one sweep step. -/
def applyVarsList (steps : Nat) : List VaryVarM → ScenarioM → Nat → ScenarioM
  | [], sc, _ => sc
  | v :: rest, sc, i => applyVarsList steps rest (setVar steps sc v i) i

/-- One step of `VaryProgram.Vary`: set every listed parameter. -/
def applyVars (vp : VaryProgramM) (sc : ScenarioM) (i : Nat) : ScenarioM :=
  applyVarsList vp.steps vp.vars sc i

/-- The emission loop of `VaryProgram.Vary`, starting at step `i` with `c`
steps remaining; the scenario value is threaded through as the loop mutates
it in place. -/
def varyFrom (vp : VaryProgramM) : ScenarioM → Nat → Nat → List ScenarioM
  | _, _, 0 => []
  | sc, i, c + 1 =>
    let sc2 := applyVars vp sc i
    sc2 :: varyFrom vp sc2 (i + 1) c

/-- `VaryProgram.Vary(scenario)`: the emitted sequence of scenarios. -/
def vary (vp : VaryProgramM) (sc : ScenarioM) : List ScenarioM := varyFrom vp sc 0 vp.steps

/-! ### parseVaryProgram (main.go lines 178-231) -/

/-- `strings.IndexByte`: index of the first occurrence, or `none`. -/
def indexByte : List Char → Char → Option Nat
  | [], _ => none
  | a :: rest, c => if a = c then some 0 else (indexByte rest c).map (· + 1)

/-- `param2Extractor` lookup. -/
def paramLookup (s : List Char) : Option ParamM :=
  if s = ['B', '_', 'R'] then some .BR
  else if s = ['O', '_', 'R'] then some .OR
  else if s = ['B', '_', 'F'] then some .BF
  else if s = ['O', '_', 'F'] then some .OF
  else if s = ['C', '_', 'R'] then some .CR
  else if s = ['P', '_', 'F'] then some .PF
  else none

/-- Result of `parseVaryProgram`: a program, an error value (`fmt.Errorf`
message contents are not modelled), or a runtime panic (`crash`). -/
inductive ParseResult where
  | ok : VaryProgramM → ParseResult
  | err : ParseResult
  | crash : ParseResult
deriving DecidableEq

/-- The item loop of `parseVaryProgram`.  `parseFloat` and `parseInt` model
`strconv.ParseFloat` / `strconv.ParseInt` (external library code).  The two
`crash` cases are the source's unguarded `vp[0]` index expressions, which
panic when the remaining string is empty.  Each iteration consumes at least
two characters, so `input.length + 1` units of fuel always suffice. -/
def parseVaryLoop (parseFloat : List Char → Option ℚ) (parseInt : List Char → Option ℤ) :
    Nat → List Char → List VaryVarM → ParseResult
  | 0, _, _ => .crash
  | f + 1, vp, vars =>
    match indexByte vp '=' with
    | none => .err
    | some i =>
      match paramLookup (vp.take i) with
      | none => .err
      | some p =>
        let vp1 := vp.drop (i + 1)
        match vp1 with
        | [] => .crash
        | c0 :: vp2 =>
          if c0 ≠ '[' then .err
          else
            match indexByte vp2 ':' with
            | none => .err
            | some j =>
              match parseFloat (vp2.take j) with
              | none => .err
              | some lo =>
                let vp3 := vp2.drop (j + 1)
                match indexByte vp3 ']' with
                | none => .err
                | some k =>
                  match parseFloat (vp3.take k) with
                  | none => .err
                  | some hi =>
                    let vars2 := vars ++ [⟨p, lo, hi⟩]
                    let vp4 := vp3.drop (k + 1)
                    match vp4 with
                    | [] => .crash
                    | d0 :: rest =>
                      if d0 = '/' then
                        match parseInt rest with
                        | none => .err
                        | some steps => .ok ⟨vars2, steps.toNat⟩
                      else if d0 ≠ ',' then .err
                      else parseVaryLoop parseFloat parseInt f rest vars2

/-- `parseVaryProgram(vp)`. -/
def parseVaryProgram (parseFloat : List Char → Option ℚ)
    (parseInt : List Char → Option ℤ) (input : List Char) : ParseResult :=
  parseVaryLoop parseFloat parseInt (input.length + 1) input []

/-! ## Concrete states used by the evaluation theorems -/

/-- A type table whose every descriptor is pointer-free. -/
def typeOfZero : Nat → FakeTypeM := fun _ => ⟨0, 0, fun _ => false⟩

/-- Block memory (word-indexed, base 0) holding a single 2048-byte object:
its header lives at word 34 (`ObjBits` word 0 = bit 34, i.e. block word 16
holds `2^34`) and encodes type address 1000 with `size/8 = 256`. -/
def memEscEx : Nat → Nat :=
  fun i => if i = 16 then 2 ^ 34 else if i = 34 then 1000 + 256 * 2 ^ 48 else 0

/-- `ObjBits` words of a block holding three consecutively allocated 248-byte
objects with headers at word indices 34, 66 and 98 (the second object spans
words 66-97). -/
def objBitsEx : Nat → Nat :=
  fun w => if w = 0 then 2 ^ 34 else if w = 1 then 2 ^ 2 + 2 ^ 34 else 0

/-- Block memory (word-indexed, base 0) holding three consecutively allocated
248-byte objects with headers at words 34, 66 and 98 (`ObjBits` words 0 and 1,
i.e. block words 16 and 17), each header encoding type address 1000 with
`size/8 = 31`.  The second object occupies words 66..97. -/
def memEscMulti : Nat → Nat :=
  fun i =>
    if i = 16 then 2 ^ 34
    else if i = 17 then 2 ^ 2 + 2 ^ 34
    else if i = 34 then 1000 + 31 * 2 ^ 48
    else if i = 66 then 1000 + 31 * 2 ^ 48
    else if i = 98 then 1000 + 31 * 2 ^ 48
    else 0

/-- A used-up block (base 0) about to be `Reset`: every `ObjBits` byte is
`0xFF` and `LineEscape` records lines 4, 6 and 8..63 as escaped (bytes
256..263 hold `2^64 - 2^8 + 2^4 + 2^6` little-endian), leaving the free lines
2, 3, 5 and 7. -/
def dirtyBlock : GoBlock :=
  { base := 0, cursor := 0, limit := 0, lineAlloc := 0,
    data := fun o =>
      if 128 ≤ o ∧ o < 256 then 255
      else if o = 256 then 80
      else if 257 ≤ o ∧ o < 264 then 255
      else 0 }

/-! ## Well-formedness predicates for the Make (claim C6) development

`wfBlock` collects the state facts the allocator maintains for every block it
can allocate from: an 8-byte-aligned base with address headroom, the two
reserved metadata lines marked in `lineAlloc`, and a bump window that is
either unset (`cursor = limit = 0`) or lies inside the block past the
256+16-byte metadata prefix.  `objBitsClear` says the block's `ObjBits`
bytes (offsets 128..255) are all zero — true of fresh blocks, and the
precondition under which `Make`'s bitmap postcondition is provable. -/

def wfBlock (b : GoBlock) : Prop :=
  b.base % 8 = 0 ∧ b.base + 2 ^ 42 < U64 ∧
  b.lineAlloc.testBit 0 = true ∧ b.lineAlloc.testBit 1 = true ∧ b.lineAlloc < U64 ∧
  (b.cursor = 0 ∧ b.limit = 0 ∨
    b.base + 272 ≤ b.cursor ∧ b.cursor ≤ b.limit ∧ b.limit ≤ b.base + 8192 ∧
      b.cursor % 8 = 0)

/-- All `ObjBits` bytes of the block are zero. -/
def objBitsClear (b : GoBlock) : Prop := ∀ o, 128 ≤ o → o < 256 → b.data o = 0

/-- A block the allocator may allocate from. -/
def goodBlock (b : GoBlock) : Prop := wfBlock b ∧ objBitsClear b

/-- What a successful bump allocation of `size` bytes at address `addr`
guarantees about the resulting block: the address is in the block's usable
part and 8-aligned, the cursor advanced past it within the window, and the
`ObjBits` bytes hold exactly the one object-start bit for word
`(addr - base)/8`. -/
def allocPost (b2 : GoBlock) (addr size : Nat) : Prop :=
  b2.base % 8 = 0 ∧
  b2.base + 272 ≤ addr ∧ addr % 8 = 0 ∧
  b2.cursor = addr + size ∧ addr + size < b2.limit ∧ b2.limit ≤ b2.base + 8192 ∧
  ∀ o, 128 ≤ o → o < 256 →
    b2.data o = if o = 128 + (addr - b2.base) / 8 / 8
      then shl64 1 ((addr - b2.base) / 8 % 8) else 0

/-! ## Lemmas about the machine-integer helpers -/

theorem update_self (f : Nat → Nat) (i v : Nat) : update f i v i = v := by
  simp [update]

theorem update_other (f : Nat → Nat) (i v j : Nat) (h : j ≠ i) : update f i v j = f j := by
  simp [update, h]

theorem alignDown_64 (x : Nat) : alignDown x 64 = 64 * (x / 64) := by
  simp [alignDown]; omega

theorem alignUp_8 (x : Nat) : alignUp x 8 = 8 * ((x + 7) / 8) := by
  simp [alignUp]; omega

theorem dvd_alignUp_8 (x : Nat) : 8 ∣ alignUp x 8 := by
  rw [alignUp_8]; exact Dvd.intro _ rfl

theorem le_alignUp_8 (x : Nat) : x ≤ alignUp x 8 := by
  rw [alignUp_8]; omega

theorem alignUp_8_lt (x : Nat) : alignUp x 8 < x + 8 := by
  rw [alignUp_8]; omega

theorem testBit_shl64 (x n r : Nat) :
    (shl64 x n).testBit r = (decide (r < 64) && (decide (n ≤ r) && x.testBit (r - n))) := by
  unfold shl64 U64
  rw [Nat.testBit_mod_two_pow, Nat.testBit_shiftLeft]

theorem testBit_or64 (x y r : Nat) :
    (or64 x y).testBit r = (x.testBit r || y.testBit r) := Nat.testBit_or x y r

theorem testBit_and64 (x y r : Nat) :
    (and64 x y).testBit r = (x.testBit r && y.testBit r) := Nat.testBit_and x y r

theorem or64_lt (x y : Nat) (hx : x < U64) (hy : y < U64) : or64 x y < U64 :=
  Nat.or_lt_two_pow hx hy

theorem shl64_lt (x n : Nat) : shl64 x n < U64 := by
  unfold shl64 U64
  exact Nat.mod_lt _ (by norm_num)

theorem wsub64_lt (x y : Nat) : wsub64 x y < U64 := by
  unfold wsub64 U64
  exact Nat.mod_lt _ (by norm_num)

/-- Go's `(uint64(1) << k) - 1` equals the mask `2^k - 1` for any `k ≤ 64`
(including `k = 64`, where the shift wraps to `0` and the subtraction wraps
back to all-ones). -/
theorem wsub64_shl64_one (k : Nat) (hk : k ≤ 64) : wsub64 (shl64 1 k) 1 = 2 ^ k - 1 := by
  rcases Nat.lt_or_ge k 64 with h | h
  · have h1 : (1 <<< k) = 2 ^ k := by simp [Nat.shiftLeft_eq]
    have h2 : 2 ^ k < U64 := by
      unfold U64; exact Nat.pow_lt_pow_right (by norm_num) h
    have h3 : shl64 1 k = 2 ^ k := by
      unfold shl64; rw [h1, Nat.mod_eq_of_lt h2]
    unfold wsub64 U64
    rw [h3]
    have h4 : 2 ^ k % 2 ^ 64 = 2 ^ k := Nat.mod_eq_of_lt h2
    rw [h4]
    have h5 : 1 % 2 ^ 64 = 1 := by norm_num
    rw [h5]
    have h6 : 2 ^ k + 2 ^ 64 - 1 = (2 ^ k - 1) + 2 ^ 64 := by
      have : 1 ≤ 2 ^ k := Nat.one_le_two_pow
      omega
    rw [h6, Nat.add_mod_right]
    exact Nat.mod_eq_of_lt (by have : 2 ^ k ≤ 2 ^ 64 := le_of_lt h2; omega)
  · have hk64 : k = 64 := by omega
    subst hk64
    decide

theorem bitsLenGo_zero (f : Nat) : bitsLenGo 0 f = 0 := by
  cases f <;> simp [bitsLenGo]

theorem bitsLenGo_spec : ∀ f x, x < 2 ^ f → x ≠ 0 →
    1 ≤ bitsLenGo x f ∧ 2 ^ (bitsLenGo x f - 1) ≤ x ∧ x < 2 ^ bitsLenGo x f := by
  intro f
  induction f with
  | zero => intro x hx h; omega
  | succ f ih =>
    intro x hx h
    have hx2 : x / 2 < 2 ^ f := by
      have : 2 ^ (f + 1) = 2 ^ f * 2 := by ring
      omega
    rcases Nat.eq_zero_or_pos (x / 2) with h2 | h2
    · have hx1 : x = 1 := by omega
      subst hx1
      simp [bitsLenGo, bitsLenGo_zero]
    · obtain ⟨h1, hlo, hhi⟩ := ih (x / 2) hx2 (by omega)
      have e : bitsLenGo x (f + 1) = bitsLenGo (x / 2) f + 1 := by
        simp [bitsLenGo, h]
      refine ⟨by omega, ?_, ?_⟩
      · rw [e]
        have h3 : bitsLenGo (x / 2) f + 1 - 1 = (bitsLenGo (x / 2) f - 1) + 1 := by omega
        rw [h3, pow_succ]
        omega
      · rw [e, pow_succ]
        omega

/-- If bit `k` is set in `v` and no higher bit is (i.e. `v < 2^(k+1)`),
then `bits.LeadingZeros64 v = 63 - k`. -/
theorem lz64_eq_of_highest (v k : Nat) (hk : k < 64) (hbit : v.testBit k = true)
    (hlt : v < 2 ^ (k + 1)) : lz64 v = 63 - k := by
  have hge : 2 ^ k ≤ v := Nat.testBit_implies_ge hbit
  have hvU : v < U64 := by
    have : 2 ^ (k + 1) ≤ 2 ^ 64 := Nat.pow_le_pow_right (by norm_num) (by omega)
    unfold U64; omega
  have hmod : v % U64 = v := Nat.mod_eq_of_lt hvU
  have hne : v ≠ 0 := by
    have : 0 < 2 ^ k := Nat.pos_pow_of_pos k (by norm_num)
    omega
  obtain ⟨h1, hlo, hhi⟩ := bitsLenGo_spec 64 v (by unfold U64 at hvU; omega) hne
  have hbl : bitsLenGo v 64 = k + 1 := by
    by_contra hne2
    rcases Nat.lt_or_ge (bitsLenGo v 64) (k + 1) with hl | hg
    · have : 2 ^ bitsLenGo v 64 ≤ 2 ^ k := Nat.pow_le_pow_right (by norm_num) (by omega)
      omega
    · have : k + 2 ≤ bitsLenGo v 64 := by omega
      have : 2 ^ (k + 1) ≤ 2 ^ (bitsLenGo v 64 - 1) := Nat.pow_le_pow_right (by norm_num) (by omega)
      omega
  unfold lz64
  rw [hmod, hbl]
  omega

theorem lz64_zero : lz64 0 = 64 := by decide

/-- A 64-bit word with every bit below 64 clear is zero. -/
theorem eq_zero_of_testBit_false (v : Nat) (hv : v < U64)
    (h : ∀ r, r < 64 → v.testBit r = false) : v = 0 := by
  apply Nat.eq_of_testBit_eq
  intro i
  rcases Nat.lt_or_ge i 64 with hi | hi
  · simp [h i hi]
  · have : v < 2 ^ i := lt_of_lt_of_le hv (Nat.pow_le_pow_right (by norm_num) hi)
    simp [Nat.testBit_lt_two_pow this]

theorem tzGo_zero (f : Nat) : tzGo 0 f = f := by
  induction f with
  | zero => rfl
  | succ f ih => simp [tzGo, ih]; omega

theorem tzGo_below (f : Nat) : ∀ x j, j < tzGo x f → x.testBit j = false := by
  induction f with
  | zero => intro x j h; simp [tzGo] at h
  | succ f ih =>
    intro x j h
    by_cases ho : x % 2 = 1
    · simp [tzGo, ho] at h
    · have e : tzGo x (f + 1) = 1 + tzGo (x / 2) f := by simp [tzGo, ho]
      rw [e] at h
      cases j with
      | zero =>
        simp only [Nat.testBit_zero, decide_eq_false_iff_not]
        omega
      | succ j =>
        rw [Nat.testBit_add_one]
        exact ih (x / 2) j (by omega)

theorem tzGo_hit (f : Nat) : ∀ x, tzGo x f < f → x.testBit (tzGo x f) = true := by
  induction f with
  | zero => intro x h; simp [tzGo] at h
  | succ f ih =>
    intro x h
    by_cases ho : x % 2 = 1
    · simp [tzGo, ho]
    · have e : tzGo x (f + 1) = 1 + tzGo (x / 2) f := by simp [tzGo, ho]
      rw [e] at h ⊢
      have h1 : 1 + tzGo (x / 2) f = tzGo (x / 2) f + 1 := by omega
      rw [h1, Nat.testBit_add_one]
      exact ih (x / 2) (by omega)

theorem tzGo_lt (f : Nat) : ∀ x, x ≠ 0 → x < 2 ^ f → tzGo x f < f := by
  induction f with
  | zero => intro x h hx; omega
  | succ f ih =>
    intro x h hx
    by_cases ho : x % 2 = 1
    · simp [tzGo, ho]
    · have e : tzGo x (f + 1) = 1 + tzGo (x / 2) f := by simp [tzGo, ho]
      rw [e]
      have hx2 : x / 2 < 2 ^ f := by
        have : 2 ^ (f + 1) = 2 ^ f * 2 := by ring
        omega
      have hne : x / 2 ≠ 0 := by omega
      have := ih (x / 2) hne hx2
      omega

theorem tz64_below (x : Nat) (hx : x < U64) (j : Nat) (h : j < tz64 x) :
    x.testBit j = false := by
  have hmod : x % U64 = x := Nat.mod_eq_of_lt hx
  unfold tz64 at h
  rw [hmod] at h
  exact tzGo_below 64 x j h

theorem tz64_hit (x : Nat) (hx : x < U64) (h : tz64 x < 64) :
    x.testBit (tz64 x) = true := by
  have hmod : x % U64 = x := Nat.mod_eq_of_lt hx
  unfold tz64
  rw [hmod]
  unfold tz64 at h
  rw [hmod] at h
  exact tzGo_hit 64 x h

theorem tz64_lt_of_ne (x : Nat) (hx : x < U64) (h : x ≠ 0) : tz64 x < 64 := by
  have hmod : x % U64 = x := Nat.mod_eq_of_lt hx
  unfold tz64
  rw [hmod]
  exact tzGo_lt 64 x h (by unfold U64 at hx; omega)

theorem tz64_le (x : Nat) : tz64 x ≤ 64 := by
  unfold tz64
  generalize x % U64 = y
  induction 64 generalizing y with
  | zero => simp [tzGo]
  | succ f ih =>
    by_cases ho : y % 2 = 1
    · simp [tzGo, ho]
    · have e : tzGo y (f + 1) = 1 + tzGo (y / 2) f := by simp [tzGo, ho]
      rw [e]
      have := ih (y / 2)
      omega

theorem tz64_of_zero : tz64 0 = 64 := by decide

/-! ### Little-endian read/write lemmas -/

theorem readLE_congr (m1 m2 : Nat → Nat) :
    ∀ k off, (∀ o, off ≤ o → o < off + k → m1 o = m2 o) →
    readLE m1 off k = readLE m2 off k := by
  intro k
  induction k with
  | zero => intro off h; rfl
  | succ k ih =>
    intro off h
    unfold readLE
    rw [h off (le_refl _) (by omega), ih (off + 1) (fun o h1 h2 => h o (by omega) (by omega))]

theorem readLE_lt (mem : Nat → Nat) : ∀ k off, readLE mem off k < 256 ^ k := by
  intro k
  induction k with
  | zero => intro off; simp [readLE]
  | succ k ih =>
    intro off
    unfold readLE
    have h1 : mem off % 256 < 256 := Nat.mod_lt _ (by norm_num)
    have h2 := ih (off + 1)
    have h3 : 256 ^ (k + 1) = 256 * 256 ^ k := by ring
    rw [h3]
    omega

theorem readLE_zero_mem (mem : Nat → Nat) : ∀ k off,
    (∀ o, off ≤ o → o < off + k → mem o = 0) → readLE mem off k = 0 := by
  intro k
  induction k with
  | zero => intro off h; rfl
  | succ k ih =>
    intro off h
    unfold readLE
    rw [h off (le_refl _) (by omega), ih (off + 1) (fun o h1 h2 => h o (by omega) (by omega))]

theorem readLE_writeLE_self : ∀ k (mem : Nat → Nat) off v,
    readLE (writeLE mem off v k) off k = v % 256 ^ k := by
  intro k
  induction k with
  | zero => intro mem off v; simp [readLE, Nat.mod_one]
  | succ k ih =>
    intro mem off v
    unfold readLE
    have h0 : writeLE mem off v (k + 1) off = (v >>> 0) % 256 := by
      simp [writeLE]
    have h0' : (v >>> 0) % 256 = v % 256 := by simp
    have hinner : readLE (writeLE mem off v (k + 1)) (off + 1) k
        = readLE (writeLE mem (off + 1) (v >>> 8) k) (off + 1) k := by
      apply readLE_congr
      intro o h1 h2
      simp only [writeLE]
      have c1 : off ≤ o ∧ o < off + (k + 1) := by omega
      have c2 : off + 1 ≤ o ∧ o < off + 1 + k := by omega
      rw [if_pos c1, if_pos c2]
      have e3 : 8 * (o - off) = 8 + 8 * (o - (off + 1)) := by omega
      rw [e3, Nat.shiftRight_add]
    rw [h0, h0', hinner, ih]
    have e4 : 256 ^ (k + 1) = 256 * 256 ^ k := by ring
    have e5 : v >>> 8 = v / 256 := by
      rw [Nat.shiftRight_eq_div_pow]
    rw [e4, e5]
    rw [Nat.mod_mul]
    omega

theorem writeLE_outside (mem : Nat → Nat) (off v k o : Nat)
    (h : o < off ∨ off + k ≤ o) : writeLE mem off v k o = mem o := by
  unfold writeLE
  have : ¬(off ≤ o ∧ o < off + k) := by omega
  simp [this]

theorem zeroRange_inside (mem : Nat → Nat) (off n o : Nat)
    (h1 : off ≤ o) (h2 : o < off + n) : zeroRange mem off n o = 0 := by
  unfold zeroRange
  simp [h1, h2]

theorem zeroRange_outside (mem : Nat → Nat) (off n o : Nat)
    (h : o < off ∨ off + n ≤ o) : zeroRange mem off n o = mem o := by
  unfold zeroRange
  have : ¬(off ≤ o ∧ o < off + n) := by omega
  simp [this]

/-! ## Claim theorems: concrete evaluations (C1, C2, C4, C5, C7) -/

/-- C1: the fast write barrier is claimed to invoke escape propagation exactly
when the reference barrier does, both consulting the escape bit of word
`(q - base)/8`.  Evaluating both barriers refutes this: with
`MinRegionAddress = 8192`, a referent at block offset 512 (word 64) whose
escape bit is set (byte `base + 8` is 1) and a heap destination, the
reference barrier does not propagate but the fast barrier does, because it
loads the `uint64` at `base + word/64` instead of `base + (word/64)*8`. -/
theorem c1_barrier_divergence :
    regionWriteBarrierFastPath 8192 memBarrierEx (8192 + 512) 100 = true ∧
    regionWriteBarrierFastPathReference 8192 memBarrierEx (8192 + 512) 100 = false := by
  constructor
  · decide
  · decide

/-- C2: `MarkEscaped` on a pointer to a 2048-byte object whose payload starts
at address 280 (line 2, ending in line 18).  The claim says every overlapped
line (2 through 18) gets its `LineEscape` bit set; the code's expression
`1 << (objEndLine-objLine) << objLine` sets only bit `objEndLine = 18`, and
bit 2 stays clear. -/
theorem c2_line_escape_single_bit :
    (markEscaped typeOfZero memEscEx 280).map
      (fun m => ((m 32).testBit 18, (m 32).testBit 2)) = some (true, false) := by
  decide

/-- C4: the object-start search at the failing input: `ObjBits` holds headers
at words 34, 66 and 98; word 66 is the most recent header at or below the
interior pointer's word 70 (bits 67-70 are clear), yet the search returns 98
— the *next* object's header — because for `objIdx ≥ 64` the slow-path mask
`(1 << objIdx) - 1` wraps to all-ones and admits bits above the pointer. -/
theorem c4_scan_wrong_header :
    findObjStart objBitsEx 70 = some 98 ∧
    ((objBitsEx 1).testBit 2, (objBitsEx 1).testBit 3, (objBitsEx 1).testBit 4,
      (objBitsEx 1).testBit 5, (objBitsEx 1).testBit 6)
      = (true, false, false, false, false) := by
  constructor
  · decide
  · decide

/-- C5: `Block.Reset` on a block whose `LineEscape` records line 10 as escaped
(`lineAlloc` becomes `0b11 | 1<<10`) and whose `ObjBits` bytes are all
`0xFF`.  The claim says exactly the free lines' 16-bit `ObjBits` chunks are
zeroed and escaped/reserved lines (here line 10, chunk bytes 148-149) keep
theirs; the code's second loop iteration indexes `ObjBits[i:i+n]` relative to
the shifted iterator and zeroes chunks 1-63, including escaped line 10.
`EscBits` (bytes 0-127) and `LineEscape` itself are indeed left unchanged. -/
theorem c5_reset_clears_escaped_chunk :
    (blockReset blockResetEx).lineAlloc.testBit 10 = true ∧
    (blockReset blockResetEx).data 148 = 0 ∧
    blockResetEx.data 148 = 255 ∧
    readLE (blockReset blockResetEx).data 256 8 = 2 ^ 10 ∧
    (blockReset blockResetEx).data 0 = blockResetEx.data 0 := by
  refine ⟨by decide, by decide, by decide, by decide, by decide⟩

/-- C7: `parseVaryProgram` is claimed to return an error value and never
crash, including on a parameter name followed by `=` at end of string.  On
input `"B_R="` the source evaluates `vp[0]` on an empty string and panics
(index out of range), for every behaviour of the external
`strconv.ParseFloat`/`ParseInt`. -/
theorem c7_parse_crash_on_truncated_input
    (parseFloat : List Char → Option ℚ) (parseInt : List Char → Option ℤ) :
    parseVaryProgram parseFloat parseInt ['B', '_', 'R', '='] = ParseResult.crash := by
  rfl

/-! ## Claim C10: strict fast-path bound -/

/-- C10: `tryAllocFast` succeeds exactly when `cursor + size` is *strictly*
below `limit`; on success the returned address is the old cursor, the new
cursor is `cursor + size` and stays strictly below the unchanged limit (so
the final bytes of a free run are never handed out); and an exact-fit
request (`cursor + size = limit`) makes `tryAlloc` fall through to the
refill path `tryAlloc1`. -/
theorem c10_fast_path_strict (b : GoBlock) (size : Nat) (h64 : b.cursor + size < U64) :
    ((tryAllocFast b size).isSome ↔ b.cursor + size < b.limit) ∧
    (∀ b2 addr, tryAllocFast b size = some (b2, addr) →
      addr = b.cursor ∧ b2.cursor = b.cursor + size ∧ b2.limit = b.limit ∧
      b2.cursor < b2.limit ∧ addr + size < b2.limit) ∧
    (b.cursor + size = b.limit → tryAlloc b size = tryAlloc1 b size 64) := by
  have hmod : (b.cursor + size) % U64 = b.cursor + size := Nat.mod_eq_of_lt h64
  by_cases hlt : b.cursor + size < b.limit
  · refine ⟨by simp [tryAllocFast, hmod, hlt], ?_, by intro h; omega⟩
    intro b2 addr h
    simp only [tryAllocFast, hmod] at h
    rw [if_pos hlt] at h
    injection h with h
    injection h with h1 h2
    subst h1
    subst h2
    exact ⟨rfl, rfl, rfl, hlt, hlt⟩
  · have hnone : tryAllocFast b size = none := by
      simp [tryAllocFast, hmod, hlt]
    refine ⟨by simp [hnone, hlt], ?_, ?_⟩
    · intro b2 addr h
      rw [hnone] at h
      exact absurd h (by simp)
    · intro _
      simp [tryAlloc, hnone]

/-- C10 witness: a block with `cursor = 300`, `limit = 350` and an exact-fit
request of 50 bytes: the fast path fails and `tryAlloc` falls through to the
refill path. -/
theorem c10_witness :
    (tryAllocFast (⟨0, 300, 350, 0, fun _ => 0⟩ : GoBlock) 50).isSome = false ∧
    tryAlloc (⟨0, 300, 350, 0, fun _ => 0⟩ : GoBlock) 50
      = tryAlloc1 (⟨0, 300, 350, 0, fun _ => 0⟩ : GoBlock) 50 64 := by
  refine ⟨by decide, ?_⟩
  exact (c10_fast_path_strict (⟨0, 300, 350, 0, fun _ => 0⟩ : GoBlock) 50
    (by norm_num [U64])).2.2 rfl

/-! ## Claim C9: sweep linearity of `VaryProgram.Vary` -/

theorem setParam_name (p : ParamM) (v : ℚ) (s : ScenarioM) :
    (setParam p v s).name = s.name := by
  cases p <;> rfl

theorem setParam_scanned (p : ParamM) (v : ℚ) (s : ScenarioM) :
    (setParam p v s).scannedRegionAllocBytesFrac = s.scannedRegionAllocBytesFrac := by
  cases p <;> rfl

theorem getParam_setParam_self (p : ParamM) (v : ℚ) (s : ScenarioM) :
    getParam p (setParam p v s) = v := by
  cases p <;> rfl

theorem getParam_setParam_ne (p q : ParamM) (v : ℚ) (s : ScenarioM) (h : q ≠ p) :
    getParam p (setParam q v s) = getParam p s := by
  cases q <;> cases p <;> first | exact absurd rfl h | rfl

theorem applyVarsList_unlisted (steps : Nat) (p : ParamM) :
    ∀ (l : List VaryVarM) (sc : ScenarioM) (i : Nat), (∀ v ∈ l, v.param ≠ p) →
    getParam p (applyVarsList steps l sc i) = getParam p sc := by
  intro l
  induction l with
  | nil => intro sc i _; rfl
  | cons w rest ih =>
    intro sc i h
    unfold applyVarsList
    rw [ih _ i (fun v hv => h v (List.mem_cons_of_mem w hv))]
    exact getParam_setParam_ne p w.param _ sc (h w (List.mem_cons_self w rest))

theorem applyVarsList_name (steps : Nat) :
    ∀ (l : List VaryVarM) (sc : ScenarioM) (i : Nat),
    (applyVarsList steps l sc i).name = sc.name := by
  intro l
  induction l with
  | nil => intro sc i; rfl
  | cons w rest ih =>
    intro sc i
    unfold applyVarsList
    rw [ih _ i]
    exact setParam_name w.param _ sc

theorem applyVarsList_scanned (steps : Nat) :
    ∀ (l : List VaryVarM) (sc : ScenarioM) (i : Nat),
    (applyVarsList steps l sc i).scannedRegionAllocBytesFrac
      = sc.scannedRegionAllocBytesFrac := by
  intro l
  induction l with
  | nil => intro sc i; rfl
  | cons w rest ih =>
    intro sc i
    unfold applyVarsList
    rw [ih _ i]
    exact setParam_scanned w.param _ sc

theorem applyVarsList_listed (steps : Nat) :
    ∀ (l : List VaryVarM) (sc : ScenarioM) (i : Nat) (v : VaryVarM),
    (l.map VaryVarM.param).Nodup → v ∈ l →
    getParam v.param (applyVarsList steps l sc i)
      = v.lo + (v.hi - v.lo) / ((((steps : ℤ) - 1 : ℤ) : ℚ)) * (i : ℚ) := by
  intro l
  induction l with
  | nil => intro sc i v _ hv; exact absurd hv (List.not_mem_nil v)
  | cons w rest ih =>
    intro sc i v hnd hv
    have hnd2 : (rest.map VaryVarM.param).Nodup := (List.nodup_cons.mp hnd).2
    have hwne : w.param ∉ rest.map VaryVarM.param := (List.nodup_cons.mp hnd).1
    rcases List.mem_cons.mp hv with he | hr
    · subst he
      unfold applyVarsList
      rw [applyVarsList_unlisted steps v.param rest _ i
        (fun u hu hequ => hwne (hequ ▸ List.mem_map_of_mem VaryVarM.param hu))]
      unfold setVar
      exact getParam_setParam_self v.param _ sc
    · unfold applyVarsList
      exact ih _ i v hnd2 hr

theorem varyFrom_length (vp : VaryProgramM) :
    ∀ (c : Nat) (sc : ScenarioM) (i : Nat), (varyFrom vp sc i c).length = c := by
  intro c
  induction c with
  | zero => intro sc i; rfl
  | succ c ih =>
    intro sc i
    unfold varyFrom
    simp [ih]

theorem varyFrom_get (vp : VaryProgramM)
    (hnd : (vp.vars.map VaryVarM.param).Nodup) :
    ∀ (c : Nat) (sc : ScenarioM) (i j : Nat) (hj : j < (varyFrom vp sc i c).length),
    (∀ v ∈ vp.vars, getParam v.param ((varyFrom vp sc i c).get ⟨j, hj⟩)
        = v.lo + (v.hi - v.lo) / ((((vp.steps : ℤ) - 1 : ℤ) : ℚ)) * ((i + j : ℕ) : ℚ)) ∧
    (∀ p : ParamM, (∀ v ∈ vp.vars, v.param ≠ p) →
      getParam p ((varyFrom vp sc i c).get ⟨j, hj⟩) = getParam p sc) ∧
    ((varyFrom vp sc i c).get ⟨j, hj⟩).scannedRegionAllocBytesFrac
      = sc.scannedRegionAllocBytesFrac ∧
    ((varyFrom vp sc i c).get ⟨j, hj⟩).name = sc.name := by
  intro c
  induction c with
  | zero =>
    intro sc i j hj
    rw [varyFrom_length] at hj
    omega
  | succ c ih =>
    intro sc i j hj
    cases j with
    | zero =>
      refine ⟨?_, ?_, ?_, ?_⟩
      · intro v hv
        show getParam v.param (applyVars vp sc i) = _
        unfold applyVars
        rw [applyVarsList_listed vp.steps vp.vars sc i v hnd hv]
        norm_num
      · intro p hp
        show getParam p (applyVars vp sc i) = _
        unfold applyVars
        exact applyVarsList_unlisted vp.steps p vp.vars sc i hp
      · show (applyVars vp sc i).scannedRegionAllocBytesFrac = _
        unfold applyVars
        exact applyVarsList_scanned vp.steps vp.vars sc i
      · show (applyVars vp sc i).name = _
        unfold applyVars
        exact applyVarsList_name vp.steps vp.vars sc i
    | succ j =>
      have hj2 : j < (varyFrom vp (applyVars vp sc i) (i + 1) c).length := by
        rw [varyFrom_length] at hj ⊢
        omega
      have hsk : ((varyFrom vp sc i (c + 1)).get ⟨j + 1, hj⟩)
          = (varyFrom vp (applyVars vp sc i) (i + 1) c).get ⟨j, hj2⟩ := rfl
      obtain ⟨h1, h2, h3, h4⟩ := ih (applyVars vp sc i) (i + 1) j hj2
      refine ⟨?_, ?_, ?_, ?_⟩
      · intro v hv
        rw [hsk, h1 v hv]
        have : ((i + 1 + j : ℕ) : ℚ) = ((i + (j + 1) : ℕ) : ℚ) := by push_cast; ring
        rw [this]
      · intro p hp
        rw [hsk, h2 p hp]
        unfold applyVars
        exact applyVarsList_unlisted vp.steps p vp.vars sc i hp
      · rw [hsk, h3]
        unfold applyVars
        exact applyVarsList_scanned vp.steps vp.vars sc i
      · rw [hsk, h4]
        unfold applyVars
        exact applyVarsList_name vp.steps vp.vars sc i

/-- C9: for a `VaryProgram` with `STEPS = N ≥ 2` over base scenario `S`
(each parameter listed once), the emitted sequence has exactly `N` scenarios;
in the `j`-th one every listed parameter equals
`LO + j*(HI - LO)/(N - 1)`, and every field not listed in the program — the
six sweepable parameters that are unlisted, the non-sweepable
`ScannedRegionAllocBytesFrac`, and the name — keeps its value from `S`.
(For `N = 1` Go's `inc = (hi-lo)/0.0` is a float division by zero, so the
claim's formula is only meaningful from `N = 2` on.) -/
theorem c9_vary_linear (vp : VaryProgramM) (sc : ScenarioM)
    (_hsteps : 2 ≤ vp.steps) (hnd : (vp.vars.map VaryVarM.param).Nodup) :
    (vary vp sc).length = vp.steps ∧
    ∀ (j : Nat) (hj : j < (vary vp sc).length),
      (∀ v ∈ vp.vars, getParam v.param ((vary vp sc).get ⟨j, hj⟩)
          = v.lo + (v.hi - v.lo) / ((((vp.steps : ℤ) - 1 : ℤ) : ℚ)) * (j : ℚ)) ∧
      (∀ p : ParamM, (∀ v ∈ vp.vars, v.param ≠ p) →
        getParam p ((vary vp sc).get ⟨j, hj⟩) = getParam p sc) ∧
      ((vary vp sc).get ⟨j, hj⟩).scannedRegionAllocBytesFrac
        = sc.scannedRegionAllocBytesFrac ∧
      ((vary vp sc).get ⟨j, hj⟩).name = sc.name := by
  constructor
  · exact varyFrom_length vp vp.steps sc 0
  · intro j hj
    unfold vary
    obtain ⟨h1, h2, h3, h4⟩ := varyFrom_get vp hnd vp.steps sc 0 j hj
    refine ⟨?_, h2, h3, h4⟩
    intro v hv
    rw [h1 v hv]
    norm_num

/-- C9 witness: sweeping `B_R` over `[0 : 1]` in 3 steps from a base scenario
with `B_S = 9`: the middle scenario has `B_R = 1/2` while `B_S` and the name
are untouched, and exactly 3 scenarios are emitted. -/
theorem c9_witness :
    (vary ⟨[⟨ParamM.BR, 0, 1⟩], 3⟩ ⟨"s", 7, 0, 0, 0, 9, 1, 0⟩).length = 3 ∧
    getParam ParamM.BR
      ((vary ⟨[⟨ParamM.BR, 0, 1⟩], 3⟩ ⟨"s", 7, 0, 0, 0, 9, 1, 0⟩).getD 1
        ⟨"s", 7, 0, 0, 0, 9, 1, 0⟩) = 1 / 2 ∧
    ((vary ⟨[⟨ParamM.BR, 0, 1⟩], 3⟩ ⟨"s", 7, 0, 0, 0, 9, 1, 0⟩).getD 1
        ⟨"s", 7, 0, 0, 0, 9, 1, 0⟩).scannedRegionAllocBytesFrac = 9 := by
  have h := c9_vary_linear ⟨[⟨ParamM.BR, 0, 1⟩], 3⟩ ⟨"s", 7, 0, 0, 0, 9, 1, 0⟩
    (by norm_num) (by simp)
  have hlen := h.1
  have hj : 1 < (vary ⟨[⟨ParamM.BR, 0, 1⟩], 3⟩ ⟨"s", 7, 0, 0, 0, 9, 1, 0⟩).length := by
    rw [hlen]; norm_num
  obtain ⟨h1, _, h3, _⟩ := h.2 1 hj
  have hget : (vary ⟨[⟨ParamM.BR, 0, 1⟩], 3⟩ ⟨"s", 7, 0, 0, 0, 9, 1, 0⟩).getD 1
      ⟨"s", 7, 0, 0, 0, 9, 1, 0⟩
      = (vary ⟨[⟨ParamM.BR, 0, 1⟩], 3⟩ ⟨"s", 7, 0, 0, 0, 9, 1, 0⟩).get ⟨1, hj⟩ :=
    List.getD_eq_get _ _ hj
  refine ⟨hlen, ?_, ?_⟩
  · rw [hget, h1 ⟨ParamM.BR, 0, 1⟩ (List.mem_singleton_self _)]
    norm_num
  · rw [hget, h3]

/-! ## Claim C8: cost-model monotonicity -/

theorem goTrunc_eval (q : ℚ) (n : ℤ) (h0 : 0 ≤ n) (h1 : (n : ℚ) ≤ q) (h2 : q < n + 1) :
    goTrunc q = n := by
  unfold goTrunc
  rw [if_neg (by
    have hn : (0 : ℚ) ≤ (n : ℚ) := by exact_mod_cast h0
    intro hc
    linarith)]
  rw [Int.floor_eq_iff]
  exact ⟨h1, h2⟩

theorem goU64_eval (q : ℚ) (n : Nat) (h1 : (n : ℚ) ≤ q) (h2 : q < n + 1) : goU64 q = n := by
  unfold goU64
  rw [goTrunc_eval q n (by positivity) (by exact_mod_cast h1) (by exact_mod_cast h2)]
  simp

theorem goTrunc_mono (a b : ℚ) (ha : 0 ≤ a) (hab : a ≤ b) : goTrunc a ≤ goTrunc b := by
  unfold goTrunc
  rw [if_neg (not_lt.mpr ha), if_neg (not_lt.mpr (le_trans ha hab))]
  exact Int.floor_le_floor hab

theorem goU64_mono (a b : ℚ) (ha : 0 ≤ a) (hab : a ≤ b) : goU64 a ≤ goU64 b :=
  Int.toNat_le_toNat (goTrunc_mono a b ha hab)

theorem goU64_cast_mono (a b : ℚ) (ha : 0 ≤ a) (hab : a ≤ b) :
    ((goU64 a : Nat) : ℚ) ≤ ((goU64 b : Nat) : ℚ) := by
  exact_mod_cast goU64_mono a b ha hab

/-- C8 counterexample: the claim "ΔCPU is non-increasing in `B_R` when
`B_F = B_S = 0` for every AppProfile" is false as stated.
Part 1: for a profile with `GCCPU = 0` and `AllocBytes = 10^9`, raising `B_R`
from 0 to 1 raises ΔCPU from 0 to 70 ms (the bump-allocator per-byte cost
0.15 exceeds the base 0.08, and there is no GC saving).
Part 2: even with `GCCPU = 1000 ≥ 0.07·AllocBytes` the computed (integer
truncated) ΔCPU still rises between `B_R = 0.9995` and `B_R = 1`, so the
non-increase can only be amended onto the untruncated formula. -/
theorem c8_counterexample :
    deltaCPU ⟨"incB", 1, 0, 1000000000, 0, 0⟩ ⟨"s", 0, 0, 0, 0, 0, 1, 0⟩
      < deltaCPU ⟨"incB", 1, 0, 1000000000, 0, 0⟩ ⟨"s", 1, 0, 0, 0, 0, 1, 0⟩ ∧
    (7 / 100 : ℚ) * ((7 : Nat) : ℚ) ≤ ((1000 : ℤ) : ℚ) ∧
    deltaCPU ⟨"quant", 1, 1000, 7, 0, 0⟩ ⟨"s", 1999 / 2000, 0, 0, 0, 0, 1, 0⟩
      < deltaCPU ⟨"quant", 1, 1000, 7, 0, 0⟩ ⟨"s", 1, 0, 0, 0, 0, 1, 0⟩ := by
  refine ⟨?_, by norm_num, ?_⟩
  · have e0 : deltaCPU ⟨"incB", 1, 0, 1000000000, 0, 0⟩ ⟨"s", 0, 0, 0, 0, 0, 1, 0⟩ = 0 := by
      unfold deltaCPU deltaAllocCPU bumpAllocCPU baseAllocCPU wbTestCPU fadeCPU
      norm_num [goU64, goTrunc]; norm_num [Int.toNat]
    have e1 : deltaCPU ⟨"incB", 1, 0, 1000000000, 0, 0⟩ ⟨"s", 1, 0, 0, 0, 0, 1, 0⟩
        = 70000000 := by
      unfold deltaCPU deltaAllocCPU bumpAllocCPU baseAllocCPU wbTestCPU fadeCPU
      norm_num [goU64, goTrunc]; norm_num [Int.toNat]
    rw [e0, e1]
    norm_num
  · have e2 : deltaCPU ⟨"quant", 1, 1000, 7, 0, 0⟩ ⟨"s", 1999 / 2000, 0, 0, 0, 0, 1, 0⟩
        = -1000 := by
      unfold deltaCPU deltaAllocCPU bumpAllocCPU baseAllocCPU wbTestCPU fadeCPU
      norm_num [goU64, goTrunc]; norm_num [Int.toNat]
    have e3 : deltaCPU ⟨"quant", 1, 1000, 7, 0, 0⟩ ⟨"s", 1, 0, 0, 0, 0, 1, 0⟩ = -999 := by
      unfold deltaCPU deltaAllocCPU bumpAllocCPU baseAllocCPU wbTestCPU fadeCPU
      norm_num [goU64, goTrunc]; norm_num [Int.toNat]
    rw [e2, e3]
    norm_num

/-- C8 (amended): with all scenario parameters in range and a non-negative
profile, ΔCPU as computed is non-decreasing in `B_F`, `O_F` and `C_R` with
all other parameters held fixed; and the *untruncated* cost formula is
non-increasing in `B_R` when `B_F = B_S = 0`, provided the profile satisfies
`0.07·AllocBytes ≤ GCCPU` (the per-byte GC saving rate at least covers the
bump-versus-base allocation premium `0.15 - 0.08`). -/
theorem c8_amended_monotonicity (prof : AppProfileM) (s : ScenarioM)
    (hgc : 0 ≤ prof.gcCPU)
    (hBR : 0 ≤ s.regionAllocBytesFrac)
    (hOR : 0 ≤ s.regionAllocsFrac)
    (hBF : 0 ≤ s.fadeAllocBytesFrac)
    (_hOF : 0 ≤ s.fadeAllocsFrac)
    (hBS : 0 ≤ s.scannedRegionAllocBytesFrac)
    (hCR : 0 ≤ s.regionScanCostRatio)
    (hPF : 0 ≤ s.fadeAllocsPointerDensity) :
    (∀ x y, 0 ≤ x → x ≤ y →
      deltaCPU prof { s with fadeAllocBytesFrac := x }
        ≤ deltaCPU prof { s with fadeAllocBytesFrac := y }) ∧
    (∀ x y, 0 ≤ x → x ≤ y →
      deltaCPU prof { s with fadeAllocsFrac := x }
        ≤ deltaCPU prof { s with fadeAllocsFrac := y }) ∧
    (∀ x y, 0 ≤ x → x ≤ y →
      deltaCPU prof { s with regionScanCostRatio := x }
        ≤ deltaCPU prof { s with regionScanCostRatio := y }) ∧
    (∀ x y, 0 ≤ x → x ≤ y →
      s.fadeAllocBytesFrac = 0 → s.scannedRegionAllocBytesFrac = 0 →
      (7 / 100 : ℚ) * (prof.allocBytes : ℚ) ≤ (prof.gcCPU : ℚ) →
      deltaCPUReal prof { s with regionAllocBytesFrac := y }
        ≤ deltaCPUReal prof { s with regionAllocBytesFrac := x }) := by
  have hgcQ : (0 : ℚ) ≤ (prof.gcCPU : ℚ) := by exact_mod_cast hgc
  have habQ : (0 : ℚ) ≤ (prof.allocBytes : ℚ) := by positivity
  have haQ : (0 : ℚ) ≤ (prof.allocs : ℚ) := by positivity
  refine ⟨?_, ?_, ?_, ?_⟩
  · -- non-decreasing in B_F
    intro x y hx hxy
    unfold deltaCPU deltaAllocCPU
    dsimp only
    have h3 : goTrunc ((prof.gcCPU : ℚ) * s.regionAllocBytesFrac
          * (x + s.scannedRegionAllocBytesFrac) * s.regionScanCostRatio)
        ≤ goTrunc ((prof.gcCPU : ℚ) * s.regionAllocBytesFrac
          * (y + s.scannedRegionAllocBytesFrac) * s.regionScanCostRatio) := by
      apply goTrunc_mono
      · have := mul_nonneg (mul_nonneg hgcQ hBR) (by linarith : (0:ℚ) ≤ x + s.scannedRegionAllocBytesFrac)
        exact mul_nonneg this hCR
      · apply mul_le_mul_of_nonneg_right _ hCR
        apply mul_le_mul_of_nonneg_left _ (mul_nonneg hgcQ hBR)
        linarith
    have hparg : (0 : ℚ) ≤ s.fadeAllocsPointerDensity * (prof.allocBytes : ℚ)
        * s.regionAllocBytesFrac * x :=
      mul_nonneg (mul_nonneg (mul_nonneg hPF habQ) hBR) hx
    have hp : (goU64 (s.fadeAllocsPointerDensity * (prof.allocBytes : ℚ)
          * s.regionAllocBytesFrac * x) : ℚ)
        ≤ (goU64 (s.fadeAllocsPointerDensity * (prof.allocBytes : ℚ)
          * s.regionAllocBytesFrac * y) : ℚ) := by
      apply goU64_cast_mono _ _ hparg
      exact mul_le_mul_of_nonneg_left hxy (mul_nonneg (mul_nonneg hPF habQ) hBR)
    have h6 : fadeCPU (goU64 ((prof.allocs : ℚ) * s.regionAllocsFrac * s.fadeAllocsFrac))
          (goU64 (s.fadeAllocsPointerDensity * (prof.allocBytes : ℚ)
            * s.regionAllocBytesFrac * x))
        ≤ fadeCPU (goU64 ((prof.allocs : ℚ) * s.regionAllocsFrac * s.fadeAllocsFrac))
          (goU64 (s.fadeAllocsPointerDensity * (prof.allocBytes : ℚ)
            * s.regionAllocBytesFrac * y)) := by
      unfold fadeCPU
      apply goTrunc_mono
      · positivity
      · nlinarith [hp]
    linarith [h3, h6]
  · -- non-decreasing in O_F
    intro x y hx hxy
    unfold deltaCPU deltaAllocCPU
    dsimp only
    have ho : (goU64 ((prof.allocs : ℚ) * s.regionAllocsFrac * x) : ℚ)
        ≤ (goU64 ((prof.allocs : ℚ) * s.regionAllocsFrac * y) : ℚ) := by
      apply goU64_cast_mono
      · exact mul_nonneg (mul_nonneg haQ hOR) hx
      · exact mul_le_mul_of_nonneg_left hxy (mul_nonneg haQ hOR)
    have h6 : fadeCPU (goU64 ((prof.allocs : ℚ) * s.regionAllocsFrac * x))
          (goU64 (s.fadeAllocsPointerDensity * (prof.allocBytes : ℚ)
            * s.regionAllocBytesFrac * s.fadeAllocBytesFrac))
        ≤ fadeCPU (goU64 ((prof.allocs : ℚ) * s.regionAllocsFrac * y))
          (goU64 (s.fadeAllocsPointerDensity * (prof.allocBytes : ℚ)
            * s.regionAllocBytesFrac * s.fadeAllocBytesFrac)) := by
      unfold fadeCPU
      apply goTrunc_mono
      · positivity
      · nlinarith [ho]
    linarith [h6]
  · -- non-decreasing in C_R
    intro x y hx hxy
    unfold deltaCPU deltaAllocCPU
    dsimp only
    have h3 : goTrunc ((prof.gcCPU : ℚ) * s.regionAllocBytesFrac
          * (s.fadeAllocBytesFrac + s.scannedRegionAllocBytesFrac) * x)
        ≤ goTrunc ((prof.gcCPU : ℚ) * s.regionAllocBytesFrac
          * (s.fadeAllocBytesFrac + s.scannedRegionAllocBytesFrac) * y) := by
      apply goTrunc_mono
      · exact mul_nonneg (mul_nonneg (mul_nonneg hgcQ hBR) (by linarith)) hx
      · exact mul_le_mul_of_nonneg_left hxy
          (mul_nonneg (mul_nonneg hgcQ hBR) (by linarith))
    linarith [h3]
  · -- non-increasing in B_R for the untruncated formula
    intro x y hx hxy hbf hbs hgcab
    unfold deltaCPUReal
    dsimp only
    rw [hbf, hbs]
    have key : 0 ≤ ((prof.gcCPU : ℚ) - (7 / 100) * (prof.allocBytes : ℚ)) * (y - x) :=
      mul_nonneg (by linarith) (by linarith)
    nlinarith [key]

/-- C8 witness: the amended monotonicity at a concrete profile and scenario:
raising `B_F` from 0 to 1 cannot lower ΔCPU, and with `B_F = B_S = 0` and
`GCCPU = 100 ≥ 0.07·AllocBytes = 7` the untruncated formula does not rise
when `B_R` goes from 0 to 1. -/
theorem c8_amended_witness :
    deltaCPU ⟨"w", 1, 100, 100, 10, 5⟩
        { (⟨"w", 1/2, 1/2, 0, 1/2, 0, 3/2, 1/8⟩ : ScenarioM) with fadeAllocBytesFrac := 0 }
      ≤ deltaCPU ⟨"w", 1, 100, 100, 10, 5⟩
        { (⟨"w", 1/2, 1/2, 0, 1/2, 0, 3/2, 1/8⟩ : ScenarioM) with fadeAllocBytesFrac := 1 } ∧
    deltaCPUReal ⟨"w", 1, 100, 100, 10, 5⟩
        { (⟨"w", 1/2, 1/2, 0, 1/2, 0, 3/2, 1/8⟩ : ScenarioM) with regionAllocBytesFrac := 1 }
      ≤ deltaCPUReal ⟨"w", 1, 100, 100, 10, 5⟩
        { (⟨"w", 1/2, 1/2, 0, 1/2, 0, 3/2, 1/8⟩ : ScenarioM) with regionAllocBytesFrac := 0 } := by
  have h := c8_amended_monotonicity ⟨"w", 1, 100, 100, 10, 5⟩
    ⟨"w", 1/2, 1/2, 0, 1/2, 0, 3/2, 1/8⟩ (by norm_num) (by norm_num) (by norm_num)
    (by norm_num) (by norm_num) (by norm_num) (by norm_num) (by norm_num)
  exact ⟨h.1 0 1 (by norm_num) (by norm_num),
    h.2.2.2 0 1 (by norm_num) (by norm_num) rfl rfl (by norm_num)⟩

/-! ## Claim C3: escape bits set by `MarkEscaped` on a pristine block -/

theorem alignDown_eq_base (base a : Nat) (hb : base % 8192 = 0)
    (h1 : base ≤ a) (h2 : a < base + 8192) : alignDown a 8192 = base := by
  unfold alignDown
  obtain ⟨k, hk⟩ : ∃ k, base = 8192 * k := ⟨base / 8192, by omega⟩
  clear hb
  subst hk
  have : a / 8192 = k := by omega
  rw [this]
  ring

/-- A value below `2^64` whose bits strictly above `k` (below 64) are all
clear is below `2^(k+1)`. -/
theorem lt_two_pow_succ_of_bits (v k : Nat) (hv : v < U64) (hk : k < 64)
    (h : ∀ r, k < r → r < 64 → v.testBit r = false) : v < 2 ^ (k + 1) := by
  have heq : v = v % 2 ^ (k + 1) := by
    apply Nat.eq_of_testBit_eq
    intro i
    rw [Nat.testBit_mod_two_pow]
    rcases Nat.lt_or_ge i (k + 1) with hi | hi
    · simp [hi]
    · rcases Nat.lt_or_ge i 64 with hi2 | hi2
      · simp [h i (by omega) hi2, Nat.not_lt.mpr hi]
      · have : v < 2 ^ i :=
          lt_of_lt_of_le hv (Nat.pow_le_pow_right (by norm_num) hi2)
        simp [Nat.testBit_lt_two_pow this, Nat.not_lt.mpr hi]
  rw [heq]
  exact Nat.mod_lt _ (Nat.pos_pow_of_pos _ (by norm_num))

/-- The slow-path mask `(uint64(1) << objIdx) - 1` of the object-start search
has, below bit 64, exactly the bits below `objIdx` set (for `objIdx ≥ 64`
the Go shift wraps to zero and the subtraction to all-ones). -/
theorem testBit_scanMask (objIdx r : Nat) (hr : r < 64) :
    (wsub64 (shl64 1 objIdx) 1).testBit r = decide (r < objIdx) := by
  rcases Nat.lt_or_ge objIdx 64 with h | h
  · rw [wsub64_shl64_one objIdx (le_of_lt h), Nat.testBit_two_pow_sub_one]
  · have h0 : shl64 1 objIdx = 0 := by
      unfold shl64 U64
      have h1 : (1 <<< objIdx) = 2 ^ objIdx := by simp [Nat.shiftLeft_eq]
      rw [h1]
      exact (Nat.mod_eq_zero_of_dvd (pow_dvd_pow 2 h))
    rw [h0]
    have h2 : wsub64 0 1 = 2 ^ 64 - 1 := by decide
    rw [h2, Nat.testBit_two_pow_sub_one]
    simp [hr]
    omega

/-- Exit step of the backward scan: when the current bitmap word's masked
leading-zero count identifies bit `ws % 64` and the scan is in the word of
`ws`, the loop returns `ws`. -/
theorem findObjStartLoop_exit (obj : Nat → Nat) (ws fuel objIdx : Nat)
    (hq : objIdx / 64 = ws / 64) (hfuel : 1 ≤ fuel) :
    findObjStartLoop obj fuel objIdx (63 - ws % 64) = some ws := by
  cases fuel with
  | zero => omega
  | succ f =>
    unfold findObjStartLoop
    rw [if_neg (by omega)]
    rw [alignDown_64]
    congr 1
    omega

/-- Descent steps of the backward scan: starting `d + 1` words above the word
of `ws`, with every strictly intermediate `ObjBits` word equal to zero and
the word of `ws` having highest set bit `ws % 64`, the loop lands on `ws`. -/
theorem findObjStartLoop_descend (obj : Nat → Nat) (ws : Nat)
    (hwsv : lz64 (obj (ws / 64)) = 63 - ws % 64)
    (hzero : ∀ w, ws / 64 < w → w ≤ 15 → obj w = 0) :
    ∀ d fuel objIdx, objIdx ≤ 1023 → objIdx / 64 = ws / 64 + (d + 1) →
    d + 2 ≤ fuel → findObjStartLoop obj fuel objIdx 64 = some ws := by
  intro d
  induction d with
  | zero =>
    intro fuel objIdx hle hq hfuel
    cases fuel with
    | zero => omega
    | succ f =>
      unfold findObjStartLoop
      rw [if_pos rfl]
      show findObjStartLoop obj f (alignDown objIdx 64 - 64)
        (lz64 (obj ((alignDown objIdx 64 - 64) / 64))) = some ws
      have e1 : alignDown objIdx 64 - 64 = 64 * (ws / 64) := by
        rw [alignDown_64]; omega
      rw [e1]
      have e2 : 64 * (ws / 64) / 64 = ws / 64 := by omega
      rw [e2, hwsv]
      exact findObjStartLoop_exit obj ws f (64 * (ws / 64)) (by omega) (by omega)
  | succ d ih =>
    intro fuel objIdx hle hq hfuel
    cases fuel with
    | zero => omega
    | succ f =>
      unfold findObjStartLoop
      rw [if_pos rfl]
      show findObjStartLoop obj f (alignDown objIdx 64 - 64)
        (lz64 (obj ((alignDown objIdx 64 - 64) / 64))) = some ws
      have e1 : alignDown objIdx 64 - 64 = 64 * (ws / 64 + (d + 1)) := by
        rw [alignDown_64]; omega
      rw [e1]
      have e2 : 64 * (ws / 64 + (d + 1)) / 64 = ws / 64 + (d + 1) := by omega
      rw [e2]
      have hz : obj (ws / 64 + (d + 1)) = 0 := by
        apply hzero _ (by omega)
        omega
      rw [hz, lz64_zero]
      exact ih f (64 * (ws / 64 + (d + 1))) (by omega) (by omega) (by omega)

/-- The object-start search of `MarkEscaped` is correct when `ws` is the
index of the most recent object header at or below the (strictly interior)
pointer word `objIdx`, and no `ObjBits` bit above `ws` is set anywhere in
the block.  (The last condition is what the mask bug of C4 makes necessary:
with set bits above the pointer inside the pointer's bitmap word the search
can land on a later header.) -/
theorem findObjStart_single (obj : Nat → Nat) (ws objIdx : Nat)
    (hbound : ∀ w, w < 16 → obj w < U64)
    (hws : (obj (ws / 64)).testBit (ws % 64) = true)
    (hhi : ∀ j, j < 1024 → ws < j → (obj (j / 64)).testBit (j % 64) = false)
    (h1 : ws < objIdx) (h2 : objIdx ≤ 1023) :
    findObjStart obj objIdx = some ws := by
  have hws15 : ws / 64 ≤ 15 := by omega
  have hwsv : lz64 (obj (ws / 64)) = 63 - ws % 64 := by
    apply lz64_eq_of_highest _ (ws % 64) (by omega)
    · have : 64 * (ws / 64) + ws % 64 = ws := by omega
      exact hws
    · apply lt_two_pow_succ_of_bits _ _ (hbound _ (by omega)) (by omega)
      intro r hr hr64
      have := hhi (64 * (ws / 64) + r) (by omega) (by omega)
      have e : (64 * (ws / 64) + r) / 64 = ws / 64 := by omega
      have e2 : (64 * (ws / 64) + r) % 64 = r := by omega
      rw [e, e2] at this
      exact this
  have hzero : ∀ w, ws / 64 < w → w ≤ 15 → obj w = 0 := by
    intro w hw hw15
    apply eq_zero_of_testBit_false _ (hbound w (by omega))
    intro r hr
    have := hhi (64 * w + r) (by omega) (by omega)
    have e : (64 * w + r) / 64 = w := by omega
    have e2 : (64 * w + r) % 64 = r := by omega
    rw [e, e2] at this
    exact this
  unfold findObjStart
  rcases Nat.lt_or_ge ws (objIdx - 1) with hfar | hnear
  · -- the preceding word is not the header: slow path
    rw [if_neg (by
      intro hcond
      have hb := hcond.2
      have := hhi (objIdx - 1) (by omega) (by omega)
      rw [this] at hb
      exact Bool.false_ne_true hb)]
    rcases Nat.eq_or_lt_of_le (Nat.le_of_lt_succ (by omega : ws / 64 < objIdx / 64 + 1))
      with hsame | hdiff
    · -- same bitmap word
      have hsame' : objIdx / 64 = ws / 64 := by omega
      have hmasked : lz64 (and64 (obj (objIdx / 64)) (wsub64 (shl64 1 objIdx) 1))
          = 63 - ws % 64 := by
        apply lz64_eq_of_highest _ (ws % 64) (by omega)
        · rw [testBit_and64, hsame']
          have e : 64 * (ws / 64) + ws % 64 = ws := by omega
          rw [hws, testBit_scanMask _ _ (by omega)]
          simp
          omega
        · apply lt_two_pow_succ_of_bits _ _ ?_ (by omega)
          · intro r hr hr64
            rw [testBit_and64, hsame']
            have := hhi (64 * (ws / 64) + r) (by omega) (by omega)
            have e : (64 * (ws / 64) + r) / 64 = ws / 64 := by omega
            have e2 : (64 * (ws / 64) + r) % 64 = r := by omega
            rw [e, e2] at this
            rw [this]
            simp
          · calc and64 (obj (objIdx / 64)) (wsub64 (shl64 1 objIdx) 1)
                ≤ obj (objIdx / 64) := Nat.and_le_left
              _ < U64 := hbound _ (by omega)
      show findObjStartLoop obj (objIdx / 64 + 1) objIdx
        (lz64 (and64 (obj (objIdx / 64)) (wsub64 (shl64 1 objIdx) 1))) = some ws
      rw [hmasked]
      exact findObjStartLoop_exit obj ws (objIdx / 64 + 1) objIdx hsame' (by omega)
    · -- the pointer is in a later bitmap word
      have hz : obj (objIdx / 64) = 0 := hzero _ (by omega) (by omega)
      have hmasked : and64 (obj (objIdx / 64)) (wsub64 (shl64 1 objIdx) 1) = 0 := by
        rw [hz]
        simp [and64]
      show findObjStartLoop obj (objIdx / 64 + 1) objIdx
        (lz64 (and64 (obj (objIdx / 64)) (wsub64 (shl64 1 objIdx) 1))) = some ws
      rw [hmasked, lz64_zero]
      exact findObjStartLoop_descend obj ws hwsv hzero (objIdx / 64 - ws / 64 - 1)
        (objIdx / 64 + 1) objIdx h2 (by omega) (by omega)
  · -- fast path: the preceding word is exactly the header
    have he : objIdx - 1 = ws := by omega
    rw [if_pos ⟨by omega, by rw [he]; exact hws⟩, he]

theorem setMidCount_spec : ∀ (c : Nat) (mem : Nat → Nat) (k j : Nat),
    setMidCount mem k c j = if k ≤ j ∧ j < k + c then not64 0 else mem j := by
  intro c
  induction c with
  | zero =>
    intro mem k j
    have h : ¬(k ≤ j ∧ j < k + 0) := by omega
    simp only [setMidCount, if_neg h]
  | succ c ih =>
    intro mem k j
    unfold setMidCount
    rw [ih]
    unfold update
    by_cases h1 : k + 1 ≤ j ∧ j < k + 1 + c
    · rw [if_pos h1, if_pos (by omega)]
    · rw [if_neg h1]
      by_cases h2 : j = k
      · subst h2
        rw [if_pos rfl, if_pos (by omega)]
      · rw [if_neg h2, if_neg (by omega)]

theorem setMidWords_spec (mem : Nat → Nat) (k e j : Nat) (hk : k ≤ e) :
    setMidWords mem k e j = if k ≤ j ∧ j < e then not64 0 else mem j := by
  unfold setMidWords
  rw [setMidCount_spec]
  by_cases h : k ≤ j ∧ j < e
  · rw [if_pos (by omega : k ≤ j ∧ j < k + (e - k)), if_pos h]
  · rw [if_neg (by omega : ¬(k ≤ j ∧ j < k + (e - k))), if_neg h]

/-- The escape-bit-setting phase on a pristine bitmap: afterwards exactly the
bits `oi .. oe` (inclusive) of the 1024-bit `EscBits` bitmap are set. -/
theorem setEscBits_pristine (mem : Nat → Nat) (eb oi oe : Nat)
    (hesc0 : ∀ w, w < 16 → mem (eb + w) = 0)
    (hle : oi ≤ oe) (hoe : oe ≤ 1023) :
    ∀ i, i < 1024 → ((setEscBits mem eb oi oe) (eb + i / 64)).testBit (i % 64)
      = decide (oi ≤ i ∧ i ≤ oe) := by
  intro i hi
  have hw15 : i / 64 ≤ 15 := by omega
  unfold setEscBits
  by_cases hsame : oi / 64 = oe / 64
  · rw [if_pos hsame]
    have hmask : wsub64 (shl64 1 (oe - oi + 1)) 1 = 2 ^ (oe - oi + 1) - 1 :=
      wsub64_shl64_one _ (by omega)
    by_cases hw : i / 64 = oi / 64
    · rw [show eb + i / 64 = eb + oi / 64 by omega]
      rw [update_self, hesc0 _ (by omega)]
      unfold or64
      rw [Nat.zero_or, hmask, testBit_shl64, Nat.testBit_two_pow_sub_one]
      rw [← Bool.decide_and, ← Bool.decide_and, decide_eq_decide]
      omega
    · rw [update_other _ _ _ _ (by omega)]
      rw [hesc0 _ (by omega), Nat.zero_testBit]
      symm
      rw [decide_eq_false_iff_not]
      omega
  · rw [if_neg hsame]
    have hlt : oi / 64 < oe / 64 := by
      rcases Nat.lt_or_ge (oi / 64) (oe / 64) with h | h
      · exact h
      · exact absurd (by omega : oi / 64 = oe / 64) hsame
    have hend : wsub64 (shl64 1 (oe % 64 + 1)) 1 = 2 ^ (oe % 64 + 1) - 1 :=
      wsub64_shl64_one _ (by omega)
    have hnot0 : not64 0 = 2 ^ 64 - 1 := by decide
    have hm2end : setMidWords
        (update mem (eb + oi / 64) (or64 (mem (eb + oi / 64)) (shl64 (not64 0) (oi % 64))))
        (eb + oi / 64 + 1) (eb + oe / 64) (eb + oe / 64)
        = mem (eb + oe / 64) := by
      rw [setMidWords_spec _ _ _ _ (by omega)]
      rw [if_neg (by omega)]
      rw [update_other _ _ _ _ (by omega)]
    by_cases hwend : i / 64 = oe / 64
    · rw [show eb + i / 64 = eb + oe / 64 by omega]
      rw [update_self, hm2end, hesc0 _ (by omega)]
      unfold or64
      rw [Nat.zero_or, hend, Nat.testBit_two_pow_sub_one, decide_eq_decide]
      omega
    · rw [update_other _ _ _ _ (by omega)]
      rw [setMidWords_spec _ _ _ _ (by omega)]
      by_cases hmid : eb + oi / 64 + 1 ≤ eb + i / 64 ∧ eb + i / 64 < eb + oe / 64
      · rw [if_pos hmid, hnot0, Nat.testBit_two_pow_sub_one, decide_eq_decide]
        omega
      · rw [if_neg hmid]
        by_cases hwlead : i / 64 = oi / 64
        · rw [show eb + i / 64 = eb + oi / 64 by omega]
          rw [update_self, hesc0 _ (by omega)]
          unfold or64
          rw [Nat.zero_or, hnot0, testBit_shl64, Nat.testBit_two_pow_sub_one]
          rw [← Bool.decide_and, ← Bool.decide_and, decide_eq_decide]
          omega
        · rw [update_other _ _ _ _ (by omega)]
          rw [hesc0 _ (by omega), Nat.zero_testBit]
          symm
          rw [decide_eq_false_iff_not]
          omega

/-- Positive side of the escape-bit analysis: `MarkEscaped(p)` on a pristine
block (all `EscBits` zero) whose LAST object has its header at word `ws` (no
`ObjBits` bit above `ws` is set — the situation in which the wrapped scan mask
cannot mislead the backward scan), with `p` anywhere strictly inside that
object's payload: the escape bits `ws .. ws + sz` (inclusive, covering the
header slot) all become 1 and every other `EscBits` bit of the block stays 0. -/
theorem markEscaped_single_object (typeOf : Nat → FakeTypeM) (mem : Nat → Nat)
    (base ws sz a : Nat)
    (hbase : base % 8192 = 0)
    (hws : 34 ≤ ws) (hsz : 1 ≤ sz) (hwe : ws + sz ≤ 1023)
    (hobound : ∀ w, w < 16 → mem (base / 8 + 16 + w) < U64)
    (hesc0 : ∀ w, w < 16 → mem (base / 8 + w) = 0)
    (hobj : (mem (base / 8 + 16 + ws / 64)).testBit (ws % 64) = true)
    (hhi : ∀ j, j < 1024 → ws < j → (mem (base / 8 + 16 + j / 64)).testBit (j % 64) = false)
    (hhdr : mem (base / 8 + ws) >>> 48 = sz)
    (hptr : (typeOf (and64 (mem (base / 8 + ws)) (wsub64 (shl64 1 48) 1))).ptrBytes = 0)
    (ha1 : base + 8 * (ws + 1) ≤ a) (ha2 : a < base + 8 * (ws + 1) + 8 * sz) :
    ∃ m2, markEscaped typeOf mem a = some m2 ∧
      ∀ i, i < 1024 → (m2 (base / 8 + i / 64)).testBit (i % 64)
        = decide (ws ≤ i ∧ i ≤ ws + sz) := by
  have hb : alignDown a 8192 = base :=
    alignDown_eq_base base a hbase (by omega) (by omega)
  have hoi : ws < (a - base) / 8 := by omega
  have hoi2 : (a - base) / 8 ≤ 1023 := by omega
  have hf : findObjStart (fun k => mem (base / 8 + 16 + k)) ((a - base) / 8) = some ws :=
    findObjStart_single _ ws ((a - base) / 8) hobound hobj hhi hoi hoi2
  have hsz8 : sz * 8 / 8 = sz := by omega
  unfold markEscaped
  rw [if_neg (by omega : ¬a = 0)]
  simp only [hb, hf, hhdr, hsz8, hptr, if_pos]
  refine ⟨_, rfl, ?_⟩
  intro i hi
  rw [update_other _ _ _ _ (by omega : base / 8 + i / 64 ≠ base / 8 + 32)]
  exact setEscBits_pristine mem (base / 8) ws (ws + sz) hesc0 (by omega) (by omega) i hi

set_option maxRecDepth 100000 in
/-- Evaluation of the single-object case: the 2048-byte object of `memEscEx`
(header word 34, 256 payload words), marked through the interior pointer 283:
bits 34 and 290 of `EscBits` are set, bit 291 (and bit 33) are not. -/
theorem markEscaped_single_object_eval :
    (markEscaped typeOfZero memEscEx 283).map
      (fun m => ((m 0).testBit 34, (m 1).testBit 36, (m 4).testBit 34,
        (m 4).testBit 35, (m 0).testBit 33))
      = some (true, true, true, false, false) := by
  have h := markEscaped_single_object typeOfZero memEscEx 0 34 256 283
    (by decide) (by decide) (by decide) (by decide)
    (by decide) (by decide) (by decide) (by decide)
    (by decide) (by decide) (by decide) (by decide)
  obtain ⟨m2, hm, hbits⟩ := h
  rw [hm]
  have b34 := hbits 34 (by norm_num)
  have b100 := hbits 100 (by norm_num)
  have b290 := hbits 290 (by norm_num)
  have b291 := hbits 291 (by norm_num)
  have b33 := hbits 33 (by norm_num)
  norm_num at b34 b100 b290 b291 b33
  simp [Option.map, b34, b100, b290, b291, b33]

/-- C3: refuted.  On the pristine three-object block `memEscMulti` (headers at
words 34, 66 and 98), `MarkEscaped(560)` — a pointer into word 70, inside the
SECOND object, which spans words 66..97 — is required by the claim to set
exactly the escape bits 66..97.  Instead the wrapped backward-scan mask (the
C4 divergence) makes the scan land on word 98, and the code sets escape bits
98..129: bit 66 (the containing object's header slot) and even bit 70 (the
pointed-at word itself) stay 0, while bits 98 and 129 — outside the containing
object — become 1. -/
theorem c3_wrong_object_marked :
    (markEscaped typeOfZero memEscMulti 560).map
      (fun m => ((m 1).testBit 2, (m 1).testBit 6, (m 1).testBit 34, (m 2).testBit 1))
      = some (false, false, true, true) := by
  decide

/-! ## Claim C6: postconditions of `Allocator.Make` -/

theorem zeroRange_zero (d : Nat → Nat) (hd : ∀ o, d o = 0) (s n o : Nat) :
    zeroRange d s n o = 0 := by
  unfold zeroRange
  split
  · rfl
  · exact hd o

theorem compl_div_mod (p M x : Nat) (hp : 0 < p) (hM : 0 < M) (hx : x < 2 * p * M) :
    (2 * p * M - 1 - x) / p % 2 = 1 - x / p % 2 := by
  have hb : x / p % 2 < 2 := Nat.mod_lt _ (by norm_num)
  have hc : x % p < p := Nat.mod_lt _ hp
  have ha : x / (2 * p) < M := by
    rw [Nat.div_lt_iff_lt_mul (by omega)]
    calc x < 2 * p * M := hx
    _ = M * (2 * p) := by ring
  have e1 : x = 2 * p * (x / (2 * p)) + (p * (x / p % 2) + x % p) := by
    have d1 := Nat.div_add_mod x (2 * p)
    have d2 : x % (2 * p) = x % p + p * (x / p % 2) := by
      rw [mul_comm 2 p]
      exact Nat.mod_mul
    omega
  set a := x / (2 * p) with hadef
  set b := x / p % 2 with hbdef
  set c := x % p with hcdef
  have h1p : 1 ≤ p := hp
  have h1M : 1 ≤ M := hM
  have h1le : 1 ≤ 2 * p * M := by
    have := Nat.mul_pos (Nat.mul_pos (by norm_num : (0:Nat) < 2) hp) hM
    omega
  have hxle : x ≤ 2 * p * M - 1 := by omega
  have ha' : a ≤ M - 1 := by omega
  have hb' : b ≤ 1 := by omega
  have hc' : c ≤ p - 1 := by omega
  have key : 2 * p * M - 1 - x = p * (2 * (M - 1 - a) + (1 - b)) + (p - 1 - c) := by
    have e1' : (x : ℤ) = 2 * p * a + (p * b + c) := by exact_mod_cast e1
    zify [hxle, h1le, ha', hb', hc', h1M, h1p]
    linear_combination -e1'
  rw [key, Nat.mul_add_div hp, Nat.div_eq_of_lt (by omega : p - 1 - c < p),
    Nat.add_zero, Nat.mul_add_mod, Nat.mod_eq_of_lt (by omega : 1 - b < 2)]

theorem not64_testBit (x j : Nat) (hx : x < U64) (hj : j < 64) :
    (not64 x).testBit j = !x.testBit j := by
  have hM : 2 * 2 ^ j * 2 ^ (63 - j) = 2 ^ 64 := by
    have h1 : 2 * 2 ^ j = 2 ^ (j + 1) := (pow_succ' 2 j).symm
    rw [h1, ← pow_add]
    congr 1
    omega
  have hx' : x < 2 ^ 64 := hx
  have hnot : not64 x = 2 * 2 ^ j * 2 ^ (63 - j) - 1 - x := by
    unfold not64
    rw [Nat.mod_eq_of_lt hx, hM]
  have h1 := compl_div_mod (2 ^ j) (2 ^ (63 - j)) x (Nat.two_pow_pos j)
    (Nat.two_pow_pos _) (by rw [hM]; exact hx')
  rw [Nat.testBit_to_div_mod, Nat.testBit_to_div_mod, hnot, h1]
  have hb2 : x / 2 ^ j % 2 = 0 ∨ x / 2 ^ j % 2 = 1 := by omega
  rcases hb2 with hb | hb <;> rw [hb] <;> rfl

theorem refill_some (b b2 : GoBlock) (hwf : wfBlock b) (h : refill b = some b2) :
    b2.base = b.base ∧ b2.data = b.data ∧ wfBlock b2 ∧
    b.base + 272 ≤ b2.cursor ∧ b2.cursor < b2.limit := by
  obtain ⟨h8, hU, hb0, hb1, hla, _⟩ := hwf
  have hlaU : b.lineAlloc < 2 ^ 64 := hla
  have hnotlt : not64 b.lineAlloc < U64 := by
    unfold not64 U64
    omega
  have hmodla : b.lineAlloc % U64 = b.lineAlloc := Nat.mod_eq_of_lt hla
  have hb0' : b.lineAlloc % 2 = 1 := by
    have hh := hb0
    rw [Nat.testBit_to_div_mod] at hh
    simpa using hh
  have hb1' : b.lineAlloc / 2 % 2 = 1 := by
    have hh := hb1
    rw [Nat.testBit_to_div_mod] at hh
    simpa using hh
  have hnotmod : not64 b.lineAlloc = 2 ^ 64 - 1 - b.lineAlloc := by
    unfold not64
    rw [hmodla]
  simp only [refill] at h
  by_cases hi64 : tz64 (not64 b.lineAlloc) = 64
  · rw [if_pos hi64] at h
    exact Option.noConfusion h
  · rw [if_neg hi64] at h
    set i := tz64 (not64 b.lineAlloc) with hidef
    have hilt : i < 64 := lt_of_le_of_ne (tz64_le _) hi64
    have hhit : (not64 b.lineAlloc).testBit i = true := tz64_hit _ hnotlt hilt
    have hige2 : 2 ≤ i := by
      rcases Nat.lt_or_ge i 2 with hcse | hcse
      · exfalso
        have hor : i = 0 ∨ i = 1 := by omega
        rcases hor with h0 | h0
        · rw [h0, Nat.testBit_to_div_mod, hnotmod] at hhit
          simp only [pow_zero, Nat.div_one] at hhit
          have hval := of_decide_eq_true hhit
          omega
        · rw [h0, Nat.testBit_to_div_mod, hnotmod] at hhit
          simp only [pow_one] at hhit
          have hval := of_decide_eq_true hhit
          omega
      · exact hcse
    have hlai : b.lineAlloc.testBit i = false := by
      have hnt := not64_testBit b.lineAlloc i hla hilt
      rw [hhit] at hnt
      cases hcase : b.lineAlloc.testBit i
      · rfl
      · rw [hcase] at hnt
        simp at hnt
    set n0 := tz64 (b.lineAlloc >>> i) with hn0def
    have hshlt : b.lineAlloc >>> i < U64 := by
      rw [Nat.shiftRight_eq_div_pow]
      exact lt_of_le_of_lt (Nat.div_le_self _ _) hla
    have hn0ge1 : 1 ≤ n0 := by
      by_contra hcc
      have h0 : n0 = 0 := by omega
      have hhit0 := tz64_hit _ hshlt (by omega)
      rw [← hn0def, h0, Nat.testBit_shiftRight, Nat.add_zero] at hhit0
      rw [hlai] at hhit0
      exact Bool.noConfusion hhit0
    by_cases hn64 : n0 = 64
    · rw [if_pos hn64] at h
      have hb2 : b2 = { b with
          lineAlloc := or64 b.lineAlloc (shl64 (wsub64 (shl64 1 (n0 - i)) 1) i),
          cursor := if i = 2 then b.base + i * 128 + 16 else b.base + i * 128,
          limit := b.base + i * 128 + (n0 - i) * 128 } := (Option.some.inj h).symm
      subst hb2
      refine ⟨rfl, rfl, ⟨h8, hU, ?_, ?_, ?_, Or.inr ⟨?_, ?_, ?_, ?_⟩⟩, ?_, ?_⟩
      · show (or64 b.lineAlloc _).testBit 0 = true
        rw [testBit_or64, hb0]
        rfl
      · show (or64 b.lineAlloc _).testBit 1 = true
        rw [testBit_or64, hb1]
        rfl
      · exact or64_lt _ _ hla (shl64_lt _ _)
      · show b.base + 272 ≤ if i = 2 then b.base + i * 128 + 16 else b.base + i * 128
        by_cases hi2 : i = 2
        · simp only [if_pos hi2]
          omega
        · simp only [if_neg hi2]
          omega
      · show (if i = 2 then b.base + i * 128 + 16 else b.base + i * 128) ≤
          b.base + i * 128 + (n0 - i) * 128
        by_cases hi2 : i = 2
        · simp only [if_pos hi2]
          omega
        · simp only [if_neg hi2]
          omega
      · show b.base + i * 128 + (n0 - i) * 128 ≤ b.base + 8192
        omega
      · show (if i = 2 then b.base + i * 128 + 16 else b.base + i * 128) % 8 = 0
        by_cases hi2 : i = 2
        · simp only [if_pos hi2]
          omega
        · simp only [if_neg hi2]
          omega
      · show b.base + 272 ≤ if i = 2 then b.base + i * 128 + 16 else b.base + i * 128
        by_cases hi2 : i = 2
        · simp only [if_pos hi2]
          omega
        · simp only [if_neg hi2]
          omega
      · show (if i = 2 then b.base + i * 128 + 16 else b.base + i * 128) <
          b.base + i * 128 + (n0 - i) * 128
        by_cases hi2 : i = 2
        · simp only [if_pos hi2]
          omega
        · simp only [if_neg hi2]
          omega
    · rw [if_neg hn64] at h
      have hn0lt : n0 < 64 := lt_of_le_of_ne (tz64_le _) hn64
      have hbitn := tz64_hit _ hshlt (by omega)
      rw [← hn0def, Nat.testBit_shiftRight] at hbitn
      have hge := Nat.testBit_implies_ge hbitn
      have hin0 : i + n0 < 64 := by
        by_contra hcc
        have hle2 : (2:Nat) ^ 64 ≤ 2 ^ (i + n0) :=
          Nat.pow_le_pow_right (by norm_num) (by omega)
        omega
      have hb2 : b2 = { b with
          lineAlloc := or64 b.lineAlloc (shl64 (wsub64 (shl64 1 n0) 1) i),
          cursor := if i = 2 then b.base + i * 128 + 16 else b.base + i * 128,
          limit := b.base + i * 128 + n0 * 128 } := (Option.some.inj h).symm
      subst hb2
      refine ⟨rfl, rfl, ⟨h8, hU, ?_, ?_, ?_, Or.inr ⟨?_, ?_, ?_, ?_⟩⟩, ?_, ?_⟩
      · show (or64 b.lineAlloc _).testBit 0 = true
        rw [testBit_or64, hb0]
        rfl
      · show (or64 b.lineAlloc _).testBit 1 = true
        rw [testBit_or64, hb1]
        rfl
      · exact or64_lt _ _ hla (shl64_lt _ _)
      · show b.base + 272 ≤ if i = 2 then b.base + i * 128 + 16 else b.base + i * 128
        by_cases hi2 : i = 2
        · simp only [if_pos hi2]
          omega
        · simp only [if_neg hi2]
          omega
      · show (if i = 2 then b.base + i * 128 + 16 else b.base + i * 128) ≤
          b.base + i * 128 + n0 * 128
        by_cases hi2 : i = 2
        · simp only [if_pos hi2]
          omega
        · simp only [if_neg hi2]
          omega
      · show b.base + i * 128 + n0 * 128 ≤ b.base + 8192
        omega
      · show (if i = 2 then b.base + i * 128 + 16 else b.base + i * 128) % 8 = 0
        by_cases hi2 : i = 2
        · simp only [if_pos hi2]
          omega
        · simp only [if_neg hi2]
          omega
      · show b.base + 272 ≤ if i = 2 then b.base + i * 128 + 16 else b.base + i * 128
        by_cases hi2 : i = 2
        · simp only [if_pos hi2]
          omega
        · simp only [if_neg hi2]
          omega
      · show (if i = 2 then b.base + i * 128 + 16 else b.base + i * 128) <
          b.base + i * 128 + n0 * 128
        by_cases hi2 : i = 2
        · simp only [if_pos hi2]
          omega
        · simp only [if_neg hi2]
          omega

theorem tryAllocFast_some (b : GoBlock) (size : Nat) (b2 : GoBlock) (addr : Nat)
    (hwf : wfBlock b) (hob : objBitsClear b) (hsz : size < 2 ^ 41)
    (h : tryAllocFast b size = some (b2, addr)) : allocPost b2 addr size := by
  obtain ⟨h8, hU, _, _, _, hwin⟩ := hwf
  simp only [tryAllocFast] at h
  by_cases hlt : (b.cursor + size) % U64 < b.limit
  · rw [if_pos hlt] at h
    simp only [Option.some.injEq, Prod.mk.injEq] at h
    obtain ⟨hb2, haddr⟩ := h
    rcases hwin with ⟨hc0, hl0⟩ | ⟨hc272, hcl, hl8192, hc8⟩
    · rw [hl0] at hlt
      exact absurd hlt (Nat.not_lt_zero _)
    · have hmod : (b.cursor + size) % U64 = b.cursor + size := by
        apply Nat.mod_eq_of_lt
        unfold U64 at hU ⊢
        omega
      rw [hmod] at hlt hb2
      subst hb2
      subst haddr
      refine ⟨h8, hc272, hc8, rfl, hlt, hl8192, ?_⟩
      intro o ho1 ho2
      show update b.data (128 + (b.cursor - b.base) / 8 / 8)
          (or64 (b.data (128 + (b.cursor - b.base) / 8 / 8))
            (shl64 1 ((b.cursor - b.base) / 8 % 8))) o
        = if o = 128 + (b.cursor - b.base) / 8 / 8
            then shl64 1 ((b.cursor - b.base) / 8 % 8) else 0
      have hwib : (b.cursor - b.base) / 8 / 8 ≤ 127 := by omega
      by_cases he : o = 128 + (b.cursor - b.base) / 8 / 8
      · rw [if_pos he, he, update_self, hob _ (by omega) (by omega)]
        unfold or64
        exact Nat.zero_or _
      · rw [if_neg he, update_other _ _ _ _ he]
        exact hob o ho1 ho2
  · rw [if_neg hlt] at h
    exact Option.noConfusion h

theorem tryAlloc1_some : ∀ (f : Nat) (b : GoBlock) (size : Nat) (b2 : GoBlock) (addr : Nat),
    wfBlock b → objBitsClear b → size < 2 ^ 41 →
    tryAlloc1 b size f = some (b2, addr) → allocPost b2 addr size := by
  intro f
  induction f with
  | zero =>
    intro b size b2 addr _ _ _ h
    exact Option.noConfusion h
  | succ f ih =>
    intro b size b2 addr hwf hob hsz h
    simp only [tryAlloc1] at h
    cases hr : refill b with
    | none =>
      simp only [hr] at h
      exact Option.noConfusion h
    | some br =>
      simp only [hr] at h
      obtain ⟨hbase, hdata, hwf2, _, _⟩ := refill_some b br hwf hr
      have hob2 : objBitsClear br := by
        intro o h1 h2
        rw [hdata]
        exact hob o h1 h2
      cases hf : tryAllocFast br size with
      | some r =>
        simp only [hf] at h
        rcases r with ⟨rb, ra⟩
        simp only [Option.some.injEq, Prod.mk.injEq] at h
        obtain ⟨h1, h2⟩ := h
        subst h1
        subst h2
        exact tryAllocFast_some br size rb ra hwf2 hob2 hsz hf
      | none =>
        simp only [hf] at h
        exact ih br size b2 addr hwf2 hob2 hsz h

theorem tryAlloc_some (b : GoBlock) (size : Nat) (b2 : GoBlock) (addr : Nat)
    (hwf : wfBlock b) (hob : objBitsClear b) (hsz : size < 2 ^ 41)
    (h : tryAlloc b size = some (b2, addr)) : allocPost b2 addr size := by
  simp only [tryAlloc] at h
  cases hf : tryAllocFast b size with
  | some r =>
    simp only [hf] at h
    rcases r with ⟨rb, ra⟩
    simp only [Option.some.injEq, Prod.mk.injEq] at h
    obtain ⟨h1, h2⟩ := h
    subst h1
    subst h2
    exact tryAllocFast_some b size rb ra hwf hob hsz hf
  | none =>
    simp only [hf] at h
    exact tryAlloc1_some 64 b size b2 addr hwf hob hsz h

theorem resetClearLoop_zero : ∀ (f it : Nat) (d : Nat → Nat),
    (∀ o, d o = 0) → ∀ o, resetClearLoop d it f o = 0 := by
  intro f
  induction f with
  | zero =>
    intro it d hd o
    exact hd o
  | succ f ih =>
    intro it d hd o
    simp only [resetClearLoop]
    by_cases h0 : it = 0
    · rw [if_pos h0]
      exact hd o
    · rw [if_neg h0]
      exact ih _ _ (fun o2 => zeroRange_zero d hd _ _ o2) o

theorem newBlock_good (base : Nat) (h8 : base % 8 = 0) (hU : base + 2 ^ 42 < U64) :
    goodBlock (newBlock 0 base) := by
  have hdz : ∀ o, writeLE (fun _ => 0) 256 0 8 o = 0 := by
    intro o
    unfold writeLE
    split
    · simp
    · rfl
  have hzero : ∀ o, (newBlock 0 base).data o = 0 := by
    intro o
    unfold newBlock blockReset
    dsimp only
    exact resetClearLoop_zero 64 _ _ hdz o
  have hla : (newBlock 0 base).lineAlloc = 3 := by
    unfold newBlock blockReset
    dsimp only
    rw [readLE_zero_mem _ 8 256 (fun o _ _ => hdz o)]
    unfold or64
    exact Nat.zero_or 3
  refine ⟨⟨h8, hU, ?_, ?_, ?_, Or.inl ⟨rfl, rfl⟩⟩, ?_⟩
  · rw [hla]
    decide
  · rw [hla]
    decide
  · rw [hla]
    decide
  · intro o _ _
    exact hzero o

theorem getBlock_spec (newBase : Nat → Nat) (st : GoAllocator) (nb : GoBlock)
    (stg : GoAllocator)
    (hnb : ∀ k, newBase k % 8 = 0 ∧ newBase k + 2 ^ 42 < U64)
    (hex : ∀ b ∈ st.existing, goodBlock b)
    (hg : getBlock newBase st = (nb, stg)) :
    goodBlock nb ∧ (∀ b ∈ stg.existing, goodBlock b) ∧
    stg.main = st.main ∧ stg.overflow = st.overflow := by
  simp only [getBlock] at hg
  cases hl : st.existing.getLast? with
  | none =>
    simp only [hl] at hg
    simp only [Prod.mk.injEq] at hg
    obtain ⟨h1, h2⟩ := hg
    subst h1
    subst h2
    exact ⟨newBlock_good _ (hnb st.freshIdx).1 (hnb st.freshIdx).2, hex, rfl, rfl⟩
  | some bl =>
    simp only [hl] at hg
    simp only [Prod.mk.injEq] at hg
    obtain ⟨h1, h2⟩ := hg
    subst h1
    subst h2
    refine ⟨hex bl (List.mem_of_mem_getLast? (Option.mem_def.mpr hl)), ?_, rfl, rfl⟩
    intro b' hb'
    exact hex b' (List.dropLast_subset _ hb')

theorem makeOverflow_some (newBase : Nat → Nat)
    (hnb : ∀ k, newBase k % 8 = 0 ∧ newBase k + 2 ^ 42 < U64) :
    ∀ (f : Nat) (st : GoAllocator) (ob : GoBlock) (fullSize : Nat)
      (st2 : GoAllocator) (addr : Nat) (isOv : Bool),
      goodBlock ob → fullSize < 2 ^ 41 →
      makeOverflow newBase f st ob fullSize = some (st2, addr, isOv) →
      isOv = true ∧ ∃ b2, st2.overflow = some b2 ∧ allocPost b2 addr fullSize := by
  intro f
  induction f with
  | zero =>
    intro st ob fullSize st2 addr isOv _ _ h
    exact Option.noConfusion h
  | succ f ih =>
    intro st ob fullSize st2 addr isOv hgood hsz h
    simp only [makeOverflow] at h
    cases ht : tryAlloc ob fullSize with
    | some r =>
      rcases r with ⟨ob2, a⟩
      simp only [ht] at h
      simp only [Option.some.injEq, Prod.mk.injEq] at h
      obtain ⟨h1, h2, h3⟩ := h
      subst h1
      subst h2
      subst h3
      exact ⟨rfl, ob2, rfl, tryAlloc_some ob fullSize ob2 a hgood.1 hgood.2 hsz ht⟩
    | none =>
      simp only [ht] at h
      exact ih _ _ _ _ _ _
        (newBlock_good _ (hnb st.freshIdx).1 (hnb st.freshIdx).2) hsz h

theorem makeOuter_some (newBase : Nat → Nat)
    (hnb : ∀ k, newBase k % 8 = 0 ∧ newBase k + 2 ^ 42 < U64) :
    ∀ (f : Nat) (st : GoAllocator) (fullSize : Nat) (st2 : GoAllocator)
      (addr : Nat) (isOv : Bool),
      (∀ b, st.main = some b → goodBlock b) →
      (∀ b, st.overflow = some b → goodBlock b) →
      (∀ b ∈ st.existing, goodBlock b) →
      fullSize < 2 ^ 41 →
      makeOuter newBase f st fullSize = some (st2, addr, isOv) →
      ∃ b2, (isOv = true ∧ st2.overflow = some b2 ∨ isOv = false ∧ st2.main = some b2) ∧
        allocPost b2 addr fullSize := by
  intro f
  induction f with
  | zero =>
    intro st fullSize st2 addr isOv _ _ _ _ h
    exact Option.noConfusion h
  | succ f ih =>
    intro st fullSize st2 addr isOv hm hov hex hsz h
    simp only [makeOuter] at h
    cases hmb : st.main with
    | none =>
      simp only [hmb] at h
      exact Option.noConfusion h
    | some mb =>
      simp only [hmb] at h
      cases ht : tryAlloc mb fullSize with
      | some r =>
        rcases r with ⟨mb2, a⟩
        simp only [ht] at h
        simp only [Option.some.injEq, Prod.mk.injEq] at h
        obtain ⟨h1, h2, h3⟩ := h
        subst h1
        subst h2
        subst h3
        exact ⟨mb2, Or.inr ⟨rfl, rfl⟩,
          tryAlloc_some mb fullSize mb2 a (hm mb hmb).1 (hm mb hmb).2 hsz ht⟩
      | none =>
        simp only [ht] at h
        by_cases hcond : 128 < fullSize ∧ 128 < wsub64 mb.limit mb.cursor
        · rw [if_pos hcond] at h
          cases hovv : st.overflow with
          | some ob =>
            simp only [hovv] at h
            obtain ⟨hT, b2, hslot, hpost⟩ := makeOverflow_some newBase hnb (f + 1)
              st ob fullSize st2 addr isOv (hov ob hovv) hsz h
            exact ⟨b2, Or.inl ⟨hT, hslot⟩, hpost⟩
          | none =>
            simp only [hovv] at h
            obtain ⟨hT, b2, hslot, hpost⟩ := makeOverflow_some newBase hnb (f + 1)
              _ _ fullSize st2 addr isOv
              (newBlock_good _ (hnb st.freshIdx).1 (hnb st.freshIdx).2) hsz h
            exact ⟨b2, Or.inl ⟨hT, hslot⟩, hpost⟩
        · rw [if_neg hcond] at h
          rcases hg : getBlock newBase { st with full := mb :: st.full, main := none }
            with ⟨nb, stg⟩
          simp only [hg] at h
          obtain ⟨hnbgood, hexg, hgm, hgov⟩ :=
            getBlock_spec newBase { st with full := mb :: st.full, main := none }
              nb stg hnb hex hg
          refine ih { stg with main := some nb } fullSize st2 addr isOv ?_ ?_ ?_ hsz h
          · intro b hb
            have hbe : nb = b := Option.some.inj hb
            exact hbe ▸ hnbgood
          · intro b hb
            exact hov b (by rw [← hgov]; exact hb)
          · exact hexg

theorem finish_spec (b2 : GoBlock) (addr size typAddr : Nat)
    (htyp : typAddr < U64) (hpost : allocPost b2 addr (alignUp (size + 8) 8)) :
    (addr + 8) % 8 = 0 ∧
    ∀ b : GoBlock, b = { b2 with data := (zeroRange
        (writeLE b2.data (addr - b2.base) (or64 typAddr (shl64 (size / 8) 48)) 8)
        (addr + 8 - b2.base) size) } →
      b.base + 280 ≤ addr + 8 ∧ addr + 8 + size ≤ b.base + 8192 ∧
      b.cursor = addr + 8 - 8 + alignUp (size + 8) 8 ∧
      readLE b.data (addr + 8 - 8 - b.base) 8 = or64 typAddr (shl64 (size / 8) 48) ∧
      (∀ o, addr + 8 - b.base ≤ o → o < addr + 8 - b.base + size → b.data o = 0) ∧
      (∀ w, w < 1024 → (b.data (128 + w / 8)).testBit (w % 8)
        = decide (w = (addr + 8 - 8 - b.base) / 8)) := by
  obtain ⟨hb8, h272, ha8, hcur, hlim, hlim2, hdata⟩ := hpost
  have hfs1 : size + 8 ≤ alignUp (size + 8) 8 := le_alignUp_8 _
  refine ⟨by omega, ?_⟩
  intro b hb
  subst hb
  refine ⟨?_, ?_, ?_, ?_, ?_, ?_⟩
  · show b2.base + 280 ≤ addr + 8
    omega
  · show addr + 8 + size ≤ b2.base + 8192
    omega
  · show b2.cursor = addr + 8 - 8 + alignUp (size + 8) 8
    rw [hcur]
    omega
  · show readLE (zeroRange
        (writeLE b2.data (addr - b2.base) (or64 typAddr (shl64 (size / 8) 48)) 8)
        (addr + 8 - b2.base) size) (addr + 8 - 8 - b2.base) 8
      = or64 typAddr (shl64 (size / 8) 48)
    have hoff : addr + 8 - 8 - b2.base = addr - b2.base := by omega
    rw [hoff]
    have hcg := readLE_congr
      (zeroRange (writeLE b2.data (addr - b2.base)
        (or64 typAddr (shl64 (size / 8) 48)) 8) (addr + 8 - b2.base) size)
      (writeLE b2.data (addr - b2.base) (or64 typAddr (shl64 (size / 8) 48)) 8)
      8 (addr - b2.base)
      (fun o h1 h2 => zeroRange_outside _ _ _ _ (Or.inl (by omega)))
    rw [hcg, readLE_writeLE_self]
    have h2564 : (256:Nat) ^ 8 = 2 ^ 64 := by norm_num
    rw [h2564]
    have hlt : or64 typAddr (shl64 (size / 8) 48) < U64 :=
      or64_lt _ _ htyp (shl64_lt _ _)
    exact Nat.mod_eq_of_lt hlt
  · intro o h1 h2
    show zeroRange
        (writeLE b2.data (addr - b2.base) (or64 typAddr (shl64 (size / 8) 48)) 8)
        (addr + 8 - b2.base) size o = 0
    exact zeroRange_inside _ _ _ _ h1 h2
  · intro w hw
    show (zeroRange
        (writeLE b2.data (addr - b2.base) (or64 typAddr (shl64 (size / 8) 48)) 8)
        (addr + 8 - b2.base) size (128 + w / 8)).testBit (w % 8)
      = decide (w = (addr + 8 - 8 - b2.base) / 8)
    have hwb : 128 + w / 8 < 256 := by omega
    rw [zeroRange_outside _ _ _ _ (Or.inl (by omega)),
      writeLE_outside _ _ _ _ _ (Or.inl (by omega)),
      hdata (128 + w / 8) (by omega) (by omega)]
    have hoff : addr + 8 - 8 - b2.base = addr - b2.base := by omega
    rw [hoff]
    set wi := (addr - b2.base) / 8 with hwid
    have hwilt : wi < 1024 := by omega
    by_cases he : w / 8 = wi / 8
    · rw [if_pos (by omega)]
      have hs : shl64 1 (wi % 8) = 2 ^ (wi % 8) := by
        unfold shl64 U64
        rw [Nat.one_shiftLeft]
        exact Nat.mod_eq_of_lt (Nat.pow_lt_pow_right (by norm_num) (by omega))
      rw [hs]
      by_cases hm8 : w % 8 = wi % 8
      · rw [hm8, Nat.testBit_two_pow_self]
        symm
        rw [decide_eq_true_eq]
        omega
      · rw [Nat.testBit_two_pow_of_ne (fun hh => hm8 hh.symm)]
        symm
        rw [decide_eq_false_iff_not]
        omega
    · rw [if_neg (by omega)]
      rw [Nat.zero_testBit]
      symm
      rw [decide_eq_false_iff_not]
      omega

theorem make_main_spec (newBase : Nat → Nat) (fuel : Nat) (st1 : GoAllocator)
    (mb : GoBlock) (size typAddr : Nat) (st' : GoAllocator) (r : Nat)
    (hmain : st1.main = some mb) (hgm : goodBlock mb)
    (hov : ∀ b, st1.overflow = some b → goodBlock b)
    (hex : ∀ b ∈ st1.existing, goodBlock b)
    (hsz : size < 2 ^ 40) (htyp : typAddr < U64)
    (hnb : ∀ k, newBase k % 8 = 0 ∧ newBase k + 2 ^ 42 < U64)
    (hmk : make newBase fuel st1 size typAddr = some (st', r)) :
    ∃ b, (st'.main = some b ∨ st'.overflow = some b) ∧
      r % 8 = 0 ∧
      b.base + 280 ≤ r ∧ r + size ≤ b.base + 8192 ∧
      b.cursor = r - 8 + alignUp (size + 8) 8 ∧
      readLE b.data (r - 8 - b.base) 8 = or64 typAddr (shl64 (size / 8) 48) ∧
      (∀ o, r - b.base ≤ o → o < r - b.base + size → b.data o = 0) ∧
      (∀ w, w < 1024 → (b.data (128 + w / 8)).testBit (w % 8)
        = decide (w = (r - 8 - b.base) / 8)) := by
  simp only [make, hmain] at hmk
  have hfs41 : alignUp (size + 8) 8 < 2 ^ 41 := by
    have := alignUp_8_lt (size + 8)
    omega
  cases ho : makeOuter newBase fuel st1 (alignUp (size + 8) 8) with
  | none =>
    simp only [ho] at hmk
    exact Option.noConfusion hmk
  | some res =>
    rcases res with ⟨st2, addr, isOv⟩
    simp only [ho] at hmk
    obtain ⟨b2, hdisj, hpost⟩ := makeOuter_some newBase hnb fuel st1 _ st2 addr isOv
      (fun b hb => by
        rw [hmain] at hb
        exact (Option.some.inj hb) ▸ hgm) hov hex hfs41 ho
    obtain ⟨hal, hrest⟩ := finish_spec b2 addr size typAddr htyp hpost
    rcases hdisj with ⟨hT, hslot⟩ | ⟨hF, hslot⟩
    · subst hT
      simp only [if_true, eq_self_iff_true, hslot] at hmk
      simp only [Option.some.injEq, Prod.mk.injEq] at hmk
      obtain ⟨h1, h2⟩ := hmk
      subst h2
      subst h1
      obtain ⟨g2, g3, g4, g5, g6, g7⟩ := hrest _ rfl
      exact ⟨_, Or.inr rfl, hal, g2, g3, g4, g5, g6, g7⟩
    · subst hF
      simp only [Bool.false_eq_true, if_false, hslot] at hmk
      simp only [Option.some.injEq, Prod.mk.injEq] at hmk
      obtain ⟨h1, h2⟩ := hmk
      subst h2
      subst h1
      obtain ⟨g2, g3, g4, g5, g6, g7⟩ := hrest _ rfl
      exact ⟨_, Or.inl rfl, hal, g2, g3, g4, g5, g6, g7⟩

/-- C6, amended.  The unconditional claim is refuted (`Reset` can leave stale
`ObjBits` bits, see the counterexample below); it holds under the added
precondition that every block held by the allocator has fully cleared
`ObjBits` (fresh blocks do).  Then every successful `Make(size, typ)`
returning pointer `r` served it from a block `b` (the main or the overflow
block of the resulting allocator state) with: `r` 8-byte aligned inside the
usable part of the block; the bump cursor advanced to
`r - 8 + AlignUp(size + 8, 8)`, i.e. the allocated extent is
`AlignUp(size + 8, 8)` bytes starting at the header `r - 8`; the header word at
`r - 8` equal to `type_ptr | (size/8 << 48)`; the payload `[r, r + size)`
zeroed; and exactly one `ObjBits` bit of the whole block set — the one of word
index `(r - 8 - base)/8` (so in particular no other bit in the allocated word
range).  Remaining preconditions are benign: the host block addresses are
8-aligned with `2^42` bytes of address headroom, `size < 2^40`, and `typ`'s
address fits a word. -/
theorem c6_make_correct (newBase : Nat → Nat) (fuel : Nat) (st0 : GoAllocator)
    (size typAddr : Nat) (st' : GoAllocator) (r : Nat)
    (hsz : size < 2 ^ 40) (htyp : typAddr < U64)
    (hnb : ∀ k, newBase k % 8 = 0 ∧ newBase k + 2 ^ 42 < U64)
    (hm0 : ∀ b, st0.main = some b → goodBlock b)
    (hov0 : ∀ b, st0.overflow = some b → goodBlock b)
    (hex0 : ∀ b ∈ st0.existing, goodBlock b)
    (hmk : make newBase fuel st0 size typAddr = some (st', r)) :
    ∃ b, (st'.main = some b ∨ st'.overflow = some b) ∧
      r % 8 = 0 ∧
      b.base + 280 ≤ r ∧ r + size ≤ b.base + 8192 ∧
      b.cursor = r - 8 + alignUp (size + 8) 8 ∧
      readLE b.data (r - 8 - b.base) 8 = or64 typAddr (shl64 (size / 8) 48) ∧
      (∀ o, r - b.base ≤ o → o < r - b.base + size → b.data o = 0) ∧
      (∀ w, w < 1024 → (b.data (128 + w / 8)).testBit (w % 8)
        = decide (w = (r - 8 - b.base) / 8)) := by
  cases hmain : st0.main with
  | some mb =>
    exact make_main_spec newBase fuel st0 mb size typAddr st' r hmain
      (hm0 mb hmain) hov0 hex0 hsz htyp hnb hmk
  | none =>
    rcases hg : getBlock newBase st0 with ⟨nb0, stg0⟩
    obtain ⟨hnb0good, hexg, hgm, hgov⟩ := getBlock_spec newBase st0 nb0 stg0 hnb hex0 hg
    have hstep : make newBase fuel st0 size typAddr
        = make newBase fuel { stg0 with main := some nb0 } size typAddr := by
      simp only [make, hmain, hg]
    rw [hstep] at hmk
    exact make_main_spec newBase fuel { stg0 with main := some nb0 } nb0 size typAddr
      st' r rfl hnb0good
      (fun b hb => hov0 b (by rw [← hgov]; exact hb)) hexg hsz htyp hnb hmk

set_option maxRecDepth 100000 in
/-- C6 witness (of the amended theorem): `Make(24, typ)` with `typ` at address
5 on a fresh allocator at base 0: the returned pointer is 8-aligned, the
serving block satisfies all the postconditions of the theorem — in particular
the header readback and the single `ObjBits` bit. -/
theorem c6_witness :
    ∃ st' r, make (fun _ => 0) 2 ⟨none, none, [], [], 0⟩ 24 5 = some (st', r) ∧
      r % 8 = 0 ∧
      ∃ b, (st'.main = some b ∨ st'.overflow = some b) ∧
        b.cursor = r - 8 + alignUp (24 + 8) 8 ∧
        readLE b.data (r - 8 - b.base) 8 = or64 5 (shl64 (24 / 8) 48) ∧
        (∀ o, r - b.base ≤ o → o < r - b.base + 24 → b.data o = 0) ∧
        (∀ w, w < 1024 → (b.data (128 + w / 8)).testBit (w % 8)
          = decide (w = (r - 8 - b.base) / 8)) := by
  have h0 : (make (fun _ => 0) 2 ⟨none, none, [], [], 0⟩ 24 5).isSome = true := rfl
  obtain ⟨⟨st', r⟩, hp⟩ := Option.isSome_iff_exists.mp h0
  obtain ⟨b, hb, h1, _, _, h4, h5, h6, h7⟩ :=
    c6_make_correct (fun _ => 0) 2 ⟨none, none, [], [], 0⟩ 24 5 st' r
      (by norm_num) (by norm_num [U64])
      (fun k => ⟨rfl, by norm_num [U64]⟩)
      (fun b h => nomatch h) (fun b h => nomatch h) (fun b h => nomatch h) hp
  exact ⟨st', r, hp, h1, b, hb, h4, h5, h6, h7⟩

set_option maxRecDepth 1000000 in
/-- C6 counterexample: the unconditional claim fails on a `Reset` block.
`dirtyBlock` (all `ObjBits` bytes `0xFF`, escaped lines 4, 6, 8..63) is
`Reset`: the clearing loop's index bug (the C5 divergence) clears only chunks
1..3, leaving free lines 5 and 7 with stale `ObjBits`.  A first `Make(150)`
fills most of the line-2..3 window (returns 280); the second `Make(80)`
refills from line 5 and returns `r = 648`, an allocation of
`AlignUp(88, 8) = 88` bytes covering words 80..90.  The claim demands exactly
one `ObjBits` bit there (word `(648-8)/8 = 80`); instead bit 80 is set AND
the stale bits 81 (byte 138, bit 1) and 90 (byte 139, bit 2) inside the
allocated word range are also set. -/
theorem c6_counterexample :
    ((make (fun _ => 0) 2 ⟨some (blockReset dirtyBlock), none, [], [], 0⟩ 150 7).bind
      (fun p => (make (fun _ => 0) 2 p.1 80 7).map
        (fun q => (q.2,
          match q.1.main with
          | some b => ((b.data 138).testBit 0, (b.data 138).testBit 1,
              (b.data 139).testBit 2)
          | none => (false, false, false)))))
      = some (648, true, true, true) := by
  rfl

end RegionEval
